import Mathlib

/-!
Verification of `schedcat/sched/edf/gy_rta.py` — response-time analysis for
EDF scheduling (Guan & Yi, "General and Efficient Response Time Analysis for
EDF Scheduling", DATE 2014).

The Python module is embedded shallowly:
* tasks are records of integer `cost`, `period`, `deadline` plus the
  `response_time` output field;
* the slack array holds `Option Int`, with `none` standing for the Python
  `float("inf")` initial value; a `response_time` of `none` models either the
  unset field or the `-inf` produced by `deadline - float("inf")`;
* the unbounded `while` loops (`find_L_prime`'s linear scan and the inner
  fixed-point iteration of `exact_wcrt`) take a fuel argument and return
  `Option`, `none` meaning the fuel ran out — `∃ fuel, ... = some ...`
  expresses termination of the Python loop;
* Python exceptions (`IndexError` on `tskset[0]` for an empty set, and any
  out-of-range sequence access) are explicit `error`/`oob` outcomes;
* `utilization()` and `sort_by_deadline()` live in the task-set container
  outside this module; they are modelled from the spec (see their
  doc comments).
-/

namespace GyRta

/-- A sporadic task: worst-case cost C, minimum inter-arrival time T and
relative deadline D, plus the `response_time` output field (`none` models the
field being unset, or the `-inf` value arising from `deadline - float("inf")`). -/
structure Task where
  cost : Int
  period : Int
  deadline : Int
  response_time : Option Int := none
deriving Repr, DecidableEq, Inhabited

/-- Python `min` on slack values, where `none` models `float("inf")`. -/
def smin : Option Int → Option Int → Option Int
  | none, b => b
  | some a, none => some a
  | some a, some b => some (min a b)

/-- Python `v < s` on a slack value `s`, where `none` models `float("inf")`. -/
def sltInf (v : Int) : Option Int → Bool
  | none => true
  | some x => decide (v < x)

/-- Python `deadline - s` on a slack value `s`: subtracting `float("inf")`
gives `-inf`, modelled as `none`. -/
def resp (d : Int) : Option Int → Option Int
  | none => none
  | some s => some (d - s)

/-- Extended order on slack values (`none` = `+inf`): `sle a b` means a ≤ b. -/
def sle : Option Int → Option Int → Prop
  | _, none => True
  | none, some _ => False
  | some a, some b => a ≤ b

/-- Extended order on response-time values (`none` = `-inf` or unset):
`rle a b` means a ≤ b. -/
def rle : Option Int → Option Int → Prop
  | none, _ => True
  | some _, none => False
  | some a, some b => a ≤ b

/-- The analysis-relevant projection of a task: the fields the algorithms
read (cost, period, deadline) — `response_time` is write-only for the engine. -/
def cpd (t : Task) : Int × Int × Int :=
  (t.cost, t.period, t.deadline)

/-- Demand bound function for task `tsk` in a time interval `t`
(`dbf_i` in the source): `max(0, (floor((t - D)/T) + 1) * C)` for `t > 0`,
else 0.  Python's true division followed by `floor` is `Int.fdiv`. -/
def dbf_i (tsk : Task) (t : Int) : Int :=
  if t ≤ 0 then 0
  else max 0 ((Int.fdiv (t - tsk.deadline) tsk.period + 1) * tsk.cost)

/-- Request bound function for task `tsk` in a time interval `t`
(`rbf_i` in the source). -/
def rbf_i (tsk : Task) (t : Int) : Int :=
  if t < 0 then 0 else dbf_i tsk (t + tsk.deadline)

/-- Demand bound function of the whole task set (`dbf` in the source). -/
def dbf (tskset : List Task) (t : Int) : Int :=
  if t ≤ 0 then 0 else (tskset.map (fun tsk => dbf_i tsk t)).sum

/-- Request bound function of the whole task set (`rbf` in the source). -/
def rbf (tskset : List Task) (t : Int) : Int :=
  if t < 0 then 0 else (tskset.map (fun tsk => rbf_i tsk t)).sum

/-- Supply bound function of a uniprocessor (`sbf_uniprocessor`). -/
def sbf_uniprocessor (t : Int) : Int := t

/-- Pseudo inverse of the uniprocessor supply bound
(`sbf_inverse_uniprocessor`). -/
def sbf_inverse_uniprocessor (x : Int) : Int := x

/-- The linear scan of `find_L_prime`: starting from `l`, return the first
point with `rbf(l) ≤ sbf(l)`; `none` when the fuel runs out (the Python
`while True` loop would still be running). -/
def find_L_prime_fuel (tskset : List Task) (sbf : Int → Int) :
    Nat → Int → Option Int
  | 0, _ => none
  | fuel + 1, l =>
      if rbf tskset l ≤ sbf l then some l
      else find_L_prime_fuel tskset sbf fuel (l + 1)

/-- `find_L_prime` in the source: scan upward from `l = 0` until
`rbf(tskset, l) ≤ sbf(l)`. -/
def find_L_prime (fuel : Nat) (tskset : List Task) (sbf : Int → Int) :
    Option Int :=
  find_L_prime_fuel tskset sbf fuel 0

/-- Python `max(tsk.deadline for tsk in tskset)`; `none` models the
`ValueError` raised on an empty sequence. -/
def max_deadline : List Task → Option Int
  | [] => none
  | t :: ts => some (ts.foldl (fun m tk => max m tk.deadline) t.deadline)

/-- Python `min(tsk.deadline for tsk in tskset)`; `none` models the
`ValueError` raised on an empty sequence. -/
def min_deadline : List Task → Option Int
  | [] => none
  | t :: ts => some (ts.foldl (fun m tk => min m tk.deadline) t.deadline)

/-- `find_L` in the source: `L = L' + max(D_i)`.  `none` when `find_L_prime`
diverges (fuel ran out) or the task set is empty. -/
def find_L (fuel : Nat) (tskset : List Task) (sbf : Int → Int) : Option Int :=
  match find_L_prime fuel tskset sbf, max_deadline tskset with
  | some lp, some md => some (lp + md)
  | _, _ => none

/-- Body of the `delta_values` generator: starting from `delta`, examine `n`
consecutive integer candidates (the Python loop runs while `delta ≤ L`, i.e.
over `L - delta₀ + 1` candidates), keeping those divisible by some task's
deadline. -/
def delta_values_from (tskset : List Task) : Int → Nat → List Int
  | _, 0 => []
  | delta, n + 1 =>
      (if tskset.any (fun tsk => delta % tsk.deadline == 0) then [delta] else [])
        ++ delta_values_from tskset (delta + 1) n

/-- `delta_values` in the source: all `δ ∈ [min D_i, L]` that are a multiple
of at least one task's deadline, in increasing order.  `none` when `find_L`
did (fuel exhausted) or the task set is empty. -/
def delta_values (fuel : Nat) (tskset : List Task) (sbf : Int → Int) :
    Option (List Int) :=
  match find_L fuel tskset sbf, min_deadline tskset with
  | some L, some d0 => some (delta_values_from tskset d0 (L + 1 - d0).toNat)
  | _, _ => none

/-- Mixed bound function for one task (`mbf_i` in the source). -/
def mbf_i (tsk : Task) (delta gamma : Int) : Int :=
  min (dbf_i tsk delta) (rbf_i tsk gamma)

/-- Mixed bound function of the whole task set (`mbf` in the source). -/
def mbf (tskset : List Task) (delta gamma : Int) : Int :=
  (tskset.map (fun tsk => mbf_i tsk delta gamma)).sum

/-- Result of a solver's δ-loop: the final slack array, an out-of-range
sequence access (Python `IndexError`), or inner-loop fuel exhaustion. -/
inductive LoopRes where
  | ok (s : List (Option Int))
  | oob
  | nofuel
deriving Repr, DecidableEq

/-- The δ-loop of `approx_wcrt` (Algorithm 1): for each δ, break once
`i ≥ len(tskset) - 1`, advance `i` when `δ ≥ tskset[i+1].deadline`, then
update `s[i] = min(s[i], δ - sbf_pseudo_inverse(dbf(tskset, δ)))`. -/
def approx_loop (tskset : List Task) (inv : Int → Int) :
    List Int → Nat → List (Option Int) → LoopRes
  | [], _, s => .ok s
  | delta :: rest, i, s =>
      if tskset.length ≤ i + 1 then .ok s
      else
        match tskset[i+1]? with
        | none => .oob
        | some nxt =>
            match s[if delta ≥ nxt.deadline then i + 1 else i]? with
            | none => .oob
            | some sj =>
                approx_loop tskset inv rest
                  (if delta ≥ nxt.deadline then i + 1 else i)
                  (s.set (if delta ≥ nxt.deadline then i + 1 else i)
                    (smin sj (some (delta - inv (dbf tskset delta)))))

/-- The inner fixed-point loop of `exact_wcrt`: iterate
`γ ← sbf_pseudo_inverse(mbf(tskset, δ, γ))` until the value stops changing;
`none` when the fuel runs out before convergence. -/
def gamma_iter (tskset : List Task) (inv : Int → Int) (delta : Int) :
    Nat → Int → Option Int
  | 0, _ => none
  | fuel + 1, gamma_old =>
      if inv (mbf tskset delta gamma_old) = gamma_old then
        some (inv (mbf tskset delta gamma_old))
      else gamma_iter tskset inv delta fuel (inv (mbf tskset delta gamma_old))

/-- The δ-loop of `exact_wcrt` (Algorithm 2): as `approx_loop`, but the slack
update is attempted only when the approximate candidate would improve `s[i]`,
and it uses the inner fixed point γ. -/
def exact_loop (tskset : List Task) (inv : Int → Int) (fuel : Nat) :
    List Int → Nat → List (Option Int) → LoopRes
  | [], _, s => .ok s
  | delta :: rest, i, s =>
      if tskset.length ≤ i + 1 then .ok s
      else
        match tskset[i+1]? with
        | none => .oob
        | some nxt =>
            match s[if delta ≥ nxt.deadline then i + 1 else i]? with
            | none => .oob
            | some sj =>
                if sltInf (delta - inv (dbf tskset delta)) sj then
                  match gamma_iter tskset inv delta fuel 0 with
                  | none => .nofuel
                  | some g =>
                      exact_loop tskset inv fuel rest
                        (if delta ≥ nxt.deadline then i + 1 else i)
                        (s.set (if delta ≥ nxt.deadline then i + 1 else i)
                          (smin sj (some (delta - g))))
                else
                  exact_loop tskset inv fuel rest
                    (if delta ≥ nxt.deadline then i + 1 else i) s

/-- The backward finalization pass, walking the reversed task and slack lists
(index n-1 down to 0) with the running propagated slack `carry`
(initially `none` = `+inf`, the neutral element): at index `i` the live slack
is `min` of the propagated slack and the original `s[i]`, the response time
`deadline - slack` is written, and the lowered slack is carried to `i - 1`
(the source's `s[i-1] = min(s[i], s[i-1])`). -/
def finalize_rev : List Task → List (Option Int) → Option Int → List Task
  | t :: ts, sv :: ss, carry =>
      let cur := smin carry sv
      { t with response_time := resp t.deadline cur } :: finalize_rev ts ss cur
  | ts, _, _ => ts

/-- The finalization loop of both solvers
(`for i in xrange(len(tskset)-1, -1, -1): ...`), expressed by walking the
reversed lists. -/
def finalize (tskset : List Task) (s : List (Option Int)) : List Task :=
  (finalize_rev tskset.reverse s.reverse none).reverse

/-- Minimum of a slack list (`none` = `+inf` is the neutral element). -/
def suffix_min : List (Option Int) → Option Int
  | [] => none
  | sv :: ss => smin sv (suffix_min ss)

/-- Spec-side description of the finalization pass, following the spec's
words: each task's written response time is `deadline − s`, where `s` is the
minimum of the task's own slack bound and the slack bounds of all
later (larger-deadline) tasks. -/
def finalizeSpec : List Task → List (Option Int) → List Task
  | t :: ts, sv :: ss =>
      { t with response_time := resp t.deadline (smin sv (suffix_min ss)) }
        :: finalizeSpec ts ss
  | ts, _ => ts

/-- Modelled from the spec: `TaskSet.utilization()` is provided by the
task-set container outside this module; the spec (§3) defines it as
`Σ(C_i / T_i)` over all tasks.  Python's float sum is modelled as the exact
rational. -/
def utilization (tskset : List Task) : ℚ :=
  (tskset.map (fun t => (t.cost : ℚ) / (t.period : ℚ))).sum

/-- Stable insertion of a task into a deadline-sorted list: the new task goes
in front of the first task with a deadline that is not smaller. -/
def insert_by_deadline (t : Task) : List Task → List Task
  | [] => [t]
  | u :: us =>
      if u.deadline < t.deadline then u :: insert_by_deadline t us
      else t :: u :: us

/-- Modelled from the spec: `TaskSet.sort_by_deadline()` is provided by the
task-set container outside this module; the spec (§3) requires it to reorder
tasks ascending by deadline, stably (Python's `list.sort` is stable), so that
re-sorting an already-sorted set is a no-op.  Modelled as a stable insertion
sort. -/
def sort_by_deadline : List Task → List Task
  | [] => []
  | t :: ts => insert_by_deadline t (sort_by_deadline ts)

/-- Observable outcome of one entry-point call: the `return False` for a
non-schedulable set (carrying the untouched task set), an uncaught Python
exception, or normal completion with the mutated task set. -/
inductive Outcome where
  | notSchedulable (ts : List Task)
  | error
  | done (ts : List Task)
deriving Repr, DecidableEq

/-- `approx_wcrt` in the source (Algorithm 1).  `none` models divergence
(fuel exhausted inside `find_L_prime`); `some .error` models the Python
`IndexError` on `tskset[0]` for an empty set or an out-of-range access. -/
def approx_wcrt (fuel : Nat) (tskset : List Task)
    (sbf : Int → Int) (inv : Int → Int) : Option Outcome :=
  if utilization tskset > 1 then some (.notSchedulable tskset)
  else
    match sort_by_deadline tskset with
    | [] => some .error
    | t0 :: ts =>
        match delta_values fuel (t0 :: ts) sbf with
        | none => none
        | some deltas =>
            match approx_loop (t0 :: ts) inv deltas 0
                (List.replicate (t0 :: ts).length none) with
            | .ok s => some (.done (finalize (t0 :: ts) s))
            | .oob => some .error
            | .nofuel => none

/-- `exact_wcrt` in the source (Algorithm 2). -/
def exact_wcrt (fuel : Nat) (tskset : List Task)
    (sbf : Int → Int) (inv : Int → Int) : Option Outcome :=
  if utilization tskset > 1 then some (.notSchedulable tskset)
  else
    match sort_by_deadline tskset with
    | [] => some .error
    | t0 :: ts =>
        match delta_values fuel (t0 :: ts) sbf with
        | none => none
        | some deltas =>
            match exact_loop (t0 :: ts) inv fuel deltas 0
                (List.replicate (t0 :: ts).length none) with
            | .ok s => some (.done (finalize (t0 :: ts) s))
            | .oob => some .error
            | .nofuel => none

/-! ### Concrete task sets used by witnesses and counterexamples -/

/-- Two tasks with deadlines 1 and 2 (cost 1, period 4 each); used to
exhibit a direct slack update on the last task index. -/
def tsTwo : List Task := [⟨1, 4, 1, none⟩, ⟨1, 4, 2, none⟩]

/-- One task with cost = period = deadline = 1 (utilization exactly 1). -/
def tsOne : List Task := [⟨1, 1, 1, none⟩]

/-- The spec's concrete scenario: A = (C=1, T=4, D=4), B = (C=2, T=6, D=6). -/
def tsAB : List Task := [⟨1, 4, 4, none⟩, ⟨2, 6, 6, none⟩]

/-- A task set with utilization 3 > 1. -/
def tsOver : List Task := [⟨3, 1, 1, none⟩]

lemma utilization_tsTwo : utilization tsTwo = 1 / 2 := by
  norm_num [utilization, tsTwo]

lemma utilization_tsOne : utilization tsOne = 1 := by
  norm_num [utilization, tsOne]

lemma utilization_tsAB : utilization tsAB = 7 / 12 := by
  norm_num [utilization, tsAB]

lemma utilization_tsOver : utilization tsOver = 3 := by
  norm_num [utilization, tsOver]

/-! ### Claim C1: utilization guard -/

/-- C1: for every task set with `utilization() > 1`, both `approx_wcrt` and
`exact_wcrt` return the distinct NotSchedulable failure outcome, leaving the
task set — every `response_time` field and the task ordering — untouched:
the failure short-circuits before any mutation, including before
`sort_by_deadline`. -/
theorem C1_utilization_guard (tskset : List Task) (fuel : Nat)
    (sbf inv : Int → Int) (h : utilization tskset > 1) :
    approx_wcrt fuel tskset sbf inv = some (.notSchedulable tskset) ∧
    exact_wcrt fuel tskset sbf inv = some (.notSchedulable tskset) := by
  unfold approx_wcrt exact_wcrt
  rw [if_pos h, if_pos h]
  exact ⟨rfl, rfl⟩

/-- Witness for C1 at the concrete overloaded task set `tsOver`. -/
theorem C1_utilization_guard_witness :
    utilization tsOver > 1 ∧
    approx_wcrt 5 tsOver sbf_uniprocessor sbf_inverse_uniprocessor
      = some (.notSchedulable tsOver) ∧
    exact_wcrt 5 tsOver sbf_uniprocessor sbf_inverse_uniprocessor
      = some (.notSchedulable tsOver) :=
  ⟨by rw [utilization_tsOver]; norm_num,
   C1_utilization_guard tsOver 5 _ _ (by rw [utilization_tsOver]; norm_num)⟩

/-! ### Claim C10: sequence accesses and the empty task set -/

lemma length_insert_by_deadline (t : Task) (ts : List Task) :
    (insert_by_deadline t ts).length = ts.length + 1 := by
  induction ts with
  | nil => rfl
  | cons u us ih =>
      rw [insert_by_deadline]
      by_cases h : u.deadline < t.deadline
      · simp [h, ih]
      · simp [h]

lemma length_sort_by_deadline (ts : List Task) :
    (sort_by_deadline ts).length = ts.length := by
  induction ts with
  | nil => rfl
  | cons t ts ih => rw [sort_by_deadline, length_insert_by_deadline, ih, List.length_cons]

lemma approx_loop_ne_oob (ts : List Task) (inv : Int → Int) :
    ∀ (deltas : List Int) (i : Nat) (s : List (Option Int)),
      s.length = ts.length → approx_loop ts inv deltas i s ≠ .oob := by
  intro deltas
  induction deltas with
  | nil => intro i s _; simp [approx_loop]
  | cons delta rest ih =>
      intro i s h
      rw [approx_loop]
      by_cases hlen : ts.length ≤ i + 1
      · simp [hlen]
      · rw [if_neg hlen]
        have hi1 : i + 1 < ts.length := by omega
        rw [List.getElem?_eq_getElem hi1]
        show (match s[if delta ≥ ts[i+1].deadline then i + 1 else i]? with
          | none => LoopRes.oob
          | some sj => approx_loop ts inv rest
              (if delta ≥ ts[i+1].deadline then i + 1 else i)
              (s.set (if delta ≥ ts[i+1].deadline then i + 1 else i)
                (smin sj (some (delta - inv (dbf ts delta)))))) ≠ LoopRes.oob
        by_cases hc : delta ≥ ts[i+1].deadline
        · rw [if_pos hc,
            List.getElem?_eq_getElem (show i + 1 < s.length by omega)]
          exact ih _ _ (by simp [h])
        · rw [if_neg hc,
            List.getElem?_eq_getElem (show i < s.length by omega)]
          exact ih _ _ (by simp [h])

lemma exact_loop_ne_oob (ts : List Task) (inv : Int → Int) (fuel : Nat) :
    ∀ (deltas : List Int) (i : Nat) (s : List (Option Int)),
      s.length = ts.length → exact_loop ts inv fuel deltas i s ≠ .oob := by
  intro deltas
  induction deltas with
  | nil => intro i s _; simp [exact_loop]
  | cons delta rest ih =>
      intro i s h
      rw [exact_loop]
      by_cases hlen : ts.length ≤ i + 1
      · simp [hlen]
      · rw [if_neg hlen]
        have hi1 : i + 1 < ts.length := by omega
        rw [List.getElem?_eq_getElem hi1]
        show (match s[if delta ≥ ts[i+1].deadline then i + 1 else i]? with
          | none => LoopRes.oob
          | some sj =>
              if sltInf (delta - inv (dbf ts delta)) sj then
                match gamma_iter ts inv delta fuel 0 with
                | none => LoopRes.nofuel
                | some g =>
                    exact_loop ts inv fuel rest
                      (if delta ≥ ts[i+1].deadline then i + 1 else i)
                      (s.set (if delta ≥ ts[i+1].deadline then i + 1 else i)
                        (smin sj (some (delta - g))))
              else
                exact_loop ts inv fuel rest
                  (if delta ≥ ts[i+1].deadline then i + 1 else i) s)
          ≠ LoopRes.oob
        by_cases hc : delta ≥ ts[i+1].deadline
        · rw [if_pos hc,
            List.getElem?_eq_getElem (show i + 1 < s.length by omega)]
          show (if sltInf (delta - inv (dbf ts delta)) s[i+1] = true then
              match gamma_iter ts inv delta fuel 0 with
              | none => LoopRes.nofuel
              | some g => exact_loop ts inv fuel rest (i + 1)
                  (s.set (i + 1) (smin s[i+1] (some (delta - g))))
            else exact_loop ts inv fuel rest (i + 1) s) ≠ LoopRes.oob
          by_cases himp : sltInf (delta - inv (dbf ts delta)) s[i+1] = true
          · rw [if_pos himp]
            cases hg : gamma_iter ts inv delta fuel 0 with
            | none => simp
            | some g => exact ih _ _ (by simp [h])
          · rw [if_neg himp]
            exact ih _ _ h
        · rw [if_neg hc,
            List.getElem?_eq_getElem (show i < s.length by omega)]
          show (if sltInf (delta - inv (dbf ts delta)) s[i] = true then
              match gamma_iter ts inv delta fuel 0 with
              | none => LoopRes.nofuel
              | some g => exact_loop ts inv fuel rest i
                  (s.set i (smin s[i] (some (delta - g))))
            else exact_loop ts inv fuel rest i s) ≠ LoopRes.oob
          by_cases himp : sltInf (delta - inv (dbf ts delta)) s[i] = true
          · rw [if_pos himp]
            cases hg : gamma_iter ts inv delta fuel 0 with
            | none => simp
            | some g => exact ih _ _ (by simp [h])
          · rw [if_neg himp]
            exact ih _ _ h

lemma utilization_nil : utilization ([] : List Task) = 0 := rfl

/-- C10: both entry points implicitly require a non-empty task set: on the
empty set the utilization guard passes (utilization is 0) and the evaluation
of `tskset[0].deadline` fails with an out-of-range error instead of returning
a result; on every non-empty task set, every sequence access performed by the
solvers stays within bounds, so no such error can arise. -/
theorem C10_empty_and_bounds :
    utilization ([] : List Task) = 0 ∧
    (∀ fuel sbf inv,
      approx_wcrt fuel [] sbf inv = some .error ∧
      exact_wcrt fuel [] sbf inv = some .error) ∧
    (∀ fuel sbf inv (ts : List Task), ts ≠ [] →
      approx_wcrt fuel ts sbf inv ≠ some .error ∧
      exact_wcrt fuel ts sbf inv ≠ some .error) := by
  refine ⟨rfl, ?_, ?_⟩
  · intro fuel sbf inv
    constructor
    · unfold approx_wcrt
      rw [utilization_nil, if_neg (by norm_num)]
      rfl
    · unfold exact_wcrt
      rw [utilization_nil, if_neg (by norm_num)]
      rfl
  · intro fuel sbf inv ts hne
    have hsort : sort_by_deadline ts ≠ [] := by
      intro hempty
      have := length_sort_by_deadline ts
      rw [hempty] at this
      exact hne (List.eq_nil_of_length_eq_zero this.symm)
    constructor
    · unfold approx_wcrt
      by_cases hu : utilization ts > 1
      · rw [if_pos hu]; simp
      · rw [if_neg hu]
        cases hs : sort_by_deadline ts with
        | nil => exact absurd hs hsort
        | cons t0 rest =>
            cases hd : delta_values fuel (t0 :: rest) sbf with
            | none => simp [hd]
            | some deltas =>
                simp only [hd]
                cases hl : approx_loop (t0 :: rest) inv deltas 0
                    (List.replicate (t0 :: rest).length none) with
                | ok s => simp [hl]
                | oob =>
                    exact absurd hl (approx_loop_ne_oob _ _ _ _ _ (by simp))
                | nofuel => simp [hl]
    · unfold exact_wcrt
      by_cases hu : utilization ts > 1
      · rw [if_pos hu]; simp
      · rw [if_neg hu]
        cases hs : sort_by_deadline ts with
        | nil => exact absurd hs hsort
        | cons t0 rest =>
            cases hd : delta_values fuel (t0 :: rest) sbf with
            | none => simp [hd]
            | some deltas =>
                simp only [hd]
                cases hl : exact_loop (t0 :: rest) inv fuel deltas 0
                    (List.replicate (t0 :: rest).length none) with
                | ok s => simp [hl]
                | oob =>
                    exact absurd hl (exact_loop_ne_oob _ _ _ _ _ _ (by simp))
                | nofuel => simp [hl]

/-- Witness for C10 at the concrete task set `tsTwo`. -/
theorem C10_empty_and_bounds_witness :
    tsTwo ≠ [] ∧
    approx_wcrt 20 tsTwo sbf_uniprocessor sbf_inverse_uniprocessor
      ≠ some .error ∧
    exact_wcrt 20 tsTwo sbf_uniprocessor sbf_inverse_uniprocessor
      ≠ some .error :=
  ⟨by decide,
   (C10_empty_and_bounds.2.2 20 sbf_uniprocessor sbf_inverse_uniprocessor
      tsTwo (by decide))⟩

/-! ### Claim C6: the backward finalization pass -/

lemma smin_none_right (a : Option Int) : smin a none = a := by
  cases a <;> rfl

lemma smin_comm (a b : Option Int) : smin a b = smin b a := by
  cases a <;> cases b <;> simp [smin, min_comm]

lemma smin_assoc (a b c : Option Int) :
    smin (smin a b) c = smin a (smin b c) := by
  cases a <;> cases b <;> cases c <;> simp [smin, min_assoc]

lemma suffix_min_append_singleton (l : List (Option Int)) (x : Option Int) :
    suffix_min (l ++ [x]) = smin (suffix_min l) x := by
  induction l with
  | nil => cases x <;> rfl
  | cons a l ih => simp [suffix_min, ih, smin_assoc]

lemma suffix_min_reverse (l : List (Option Int)) :
    suffix_min l.reverse = suffix_min l := by
  induction l with
  | nil => rfl
  | cons a l ih =>
      rw [List.reverse_cons, suffix_min_append_singleton, ih, suffix_min,
        smin_comm]

/-- `finalizeSpec` generalized by the slack value propagated in from beyond
the end of the list. -/
def finalizeSpecC : List Task → List (Option Int) → Option Int → List Task
  | t :: ts, sv :: ss, c =>
      { t with response_time := resp t.deadline (smin sv (smin (suffix_min ss) c)) }
        :: finalizeSpecC ts ss c
  | ts, _, _ => ts

lemma finalizeSpecC_none (ts : List Task) (s : List (Option Int)) :
    finalizeSpecC ts s none = finalizeSpec ts s := by
  induction ts generalizing s with
  | nil => cases s <;> rfl
  | cons t ts ih =>
      cases s with
      | nil => rfl
      | cons sv ss => rw [finalizeSpecC, finalizeSpec, smin_none_right, ih]

lemma finalize_rev_append (t : Task) (sv : Option Int) :
    ∀ (tsr : List Task) (ssr : List (Option Int)) (c : Option Int),
      tsr.length = ssr.length →
      finalize_rev (tsr ++ [t]) (ssr ++ [sv]) c =
        finalize_rev tsr ssr c ++
          [{ t with
              response_time := resp t.deadline (smin (smin c (suffix_min ssr)) sv) }] := by
  intro tsr
  induction tsr with
  | nil =>
      intro ssr c h
      cases ssr with
      | nil => simp [finalize_rev, suffix_min, smin_none_right]
      | cons _ _ => simp at h
  | cons u us ih =>
      intro ssr c h
      cases ssr with
      | nil => simp at h
      | cons w ws =>
          simp only [List.cons_append, finalize_rev, List.append_eq]
          rw [ih ws (smin c w) (by simpa using h)]
          simp [suffix_min, smin_assoc]

/-- The backward pass with live slack propagation computes, at each index,
the response time from the minimum of that index's slack and all later
slacks (together with the incoming carry). -/
lemma finalize_rev_eq_specC :
    ∀ (ts : List Task) (s : List (Option Int)) (c : Option Int),
      ts.length = s.length →
      finalize_rev ts.reverse s.reverse c = (finalizeSpecC ts s c).reverse := by
  intro ts
  induction ts with
  | nil =>
      intro s c h
      cases s with
      | nil => rfl
      | cons _ _ => simp at h
  | cons t ts ih =>
      intro s c h
      cases s with
      | nil => simp at h
      | cons sv ss =>
          rw [List.reverse_cons, List.reverse_cons,
            finalize_rev_append t sv ts.reverse ss.reverse c (by simpa using h),
            ih ss c (by simpa using h), finalizeSpecC, List.reverse_cons,
            suffix_min_reverse]
          congr 2
          rw [smin_comm c (suffix_min ss), ← smin_assoc, smin_comm _ sv,
            smin_assoc]

/-- The finalization loop writes exactly the suffix-minimum response times. -/
lemma finalize_eq_spec (ts : List Task) (s : List (Option Int))
    (h : ts.length = s.length) : finalize ts s = finalizeSpec ts s := by
  rw [finalize, finalize_rev_eq_specC ts s none h, List.reverse_reverse,
    finalizeSpecC_none]

/-- C6: in the finalization pass of both solvers, indices are visited from
highest to lowest, each index `i` receives
`response_time[i] = deadline[i] − s[i]` with the propagation
`s[i-1] = min(s[i-1], s[i])` applied before index `i-1` is finalized, so
every task's written response time is its deadline minus the minimum of its
own slack bound and the slack bounds of all later (larger-deadline) tasks. -/
theorem C6_finalization_suffix_min (ts : List Task) (s : List (Option Int))
    (h : ts.length = s.length) : finalize ts s = finalizeSpec ts s :=
  finalize_eq_spec ts s h

/-- Witness for C6 at the concrete task set `tsTwo` with slack array
`[some 0, some 0]`. -/
theorem C6_finalization_suffix_min_witness :
    tsTwo.length = [some 0, some 0].length ∧
    finalize tsTwo [some 0, some 0] = finalizeSpec tsTwo [some 0, some 0] :=
  ⟨by decide, C6_finalization_suffix_min tsTwo [some 0, some 0] (by decide)⟩

/-! ### Claim C7: the closed forms of `dbf_i` and `rbf_i` -/

/-- Python's true division followed by `floor` is floored integer division. -/
lemma fdiv_eq_rat_floor (a T : Int) (hT : 0 < T) :
    Int.fdiv a T = ⌊(a : ℚ) / (T : ℚ)⌋ := by
  have hT' : ((T.toNat : ℕ) : ℤ) = T := Int.toNat_of_nonneg hT.le
  have hTq : ((T.toNat : ℕ) : ℚ) = (T : ℚ) := by exact_mod_cast hT'
  have h := Rat.floor_intCast_div_natCast a T.toNat
  rw [hT', hTq] at h
  rw [Int.fdiv_eq_ediv _ hT.le]
  exact h.symm

/-- C7: for every task with positive cost, period and deadline, `dbf_i` is
`max(0, (⌊(t − D)/T⌋ + 1)·C)` for `t > 0` and `0` for `t ≤ 0`, and `rbf_i`
is `dbf_i(t + D)` for `t ≥ 0` and `0` for `t < 0` (the floor taken over the
exact rational quotient). -/
theorem C7_dbf_rbf_formulas (tsk : Task) (t : Int)
    (hc : 0 < tsk.cost) (hp : 0 < tsk.period) (hd : 0 < tsk.deadline) :
    (0 < t → dbf_i tsk t =
      max 0 ((⌊((t : ℚ) - (tsk.deadline : ℚ)) / (tsk.period : ℚ)⌋ + 1) * tsk.cost)) ∧
    (t ≤ 0 → dbf_i tsk t = 0) ∧
    (0 ≤ t → rbf_i tsk t = dbf_i tsk (t + tsk.deadline)) ∧
    (t < 0 → rbf_i tsk t = 0) := by
  refine ⟨?_, ?_, ?_, ?_⟩
  · intro ht
    rw [dbf_i, if_neg (by omega), fdiv_eq_rat_floor _ _ hp]
    norm_num
  · intro ht
    rw [dbf_i, if_pos ht]
  · intro ht
    rw [rbf_i, if_neg (by omega)]
  · intro ht
    rw [rbf_i, if_pos ht]

/-- Witness for C7 at the concrete task (C=2, T=4, D=3) and t = 5. -/
theorem C7_dbf_rbf_formulas_witness :
    (0 < (5 : Int) → dbf_i ⟨2, 4, 3, none⟩ 5 =
      max 0 ((⌊((5 : ℚ) - ((3 : Int) : ℚ)) / (((4 : Int)) : ℚ)⌋ + 1) * 2)) ∧
    ((5 : Int) ≤ 0 → dbf_i ⟨2, 4, 3, none⟩ 5 = 0) ∧
    (0 ≤ (5 : Int) → rbf_i ⟨2, 4, 3, none⟩ 5 = dbf_i ⟨2, 4, 3, none⟩ (5 + 3)) ∧
    ((5 : Int) < 0 → rbf_i ⟨2, 4, 3, none⟩ 5 = 0) :=
  C7_dbf_rbf_formulas ⟨2, 4, 3, none⟩ 5 (by decide) (by decide) (by decide)

/-! ### Claims C2 and C3: behaviour at utilization exactly 1 -/

lemma rbf_i_unit (l : Int) (h : 0 ≤ l) : rbf_i ⟨1, 1, 1, none⟩ l = l + 1 := by
  rw [rbf_i, if_neg (by omega), dbf_i, if_neg (by show ¬(l + 1 ≤ 0); omega)]
  show max 0 ((Int.fdiv (l + 1 - 1) 1 + 1) * 1) = l + 1
  rw [show l + 1 - 1 = l by ring, Int.fdiv_one]
  omega

lemma rbf_tsOne (l : Int) (h : 0 ≤ l) : rbf tsOne l = l + 1 := by
  rw [rbf, if_neg (by omega)]
  simp only [tsOne, List.map_cons, List.map_nil, List.sum_cons, List.sum_nil,
    add_zero]
  exact rbf_i_unit l h

/-- On the unit task set the linear scan of `find_L_prime` never stops:
`rbf(ℓ) = ℓ + 1 > ℓ = sbf(ℓ)` for every ℓ ≥ 0. -/
lemma find_L_prime_fuel_tsOne_none :
    ∀ (fuel : Nat) (l : Int), 0 ≤ l →
      find_L_prime_fuel tsOne sbf_uniprocessor fuel l = none := by
  intro fuel
  induction fuel with
  | zero => intro l _; rfl
  | succ n ih =>
      intro l hl
      rw [find_L_prime_fuel,
        if_neg (by rw [rbf_tsOne l hl]; simp [sbf_uniprocessor])]
      exact ih (l + 1) (by omega)

lemma delta_values_tsOne_none (fuel : Nat) :
    delta_values fuel tsOne sbf_uniprocessor = none := by
  have hLp : find_L_prime fuel tsOne sbf_uniprocessor = none :=
    find_L_prime_fuel_tsOne_none fuel 0 le_rfl
  have hL : find_L fuel tsOne sbf_uniprocessor = none := by
    unfold find_L
    rw [hLp]
  unfold delta_values
  rw [hL]

/-- C2 (code bug evidence): on the single task with
cost = period = deadline = 1 the utilization guard passes
(utilization is exactly 1), yet both entry points diverge inside
`find_L_prime` — for every fuel bound the embedded run is still unfinished —
so neither algorithm ever sets `response_time` to C. -/
theorem C2_unit_task_diverges :
    utilization tsOne ≤ 1 ∧
    (∀ fuel,
      approx_wcrt fuel tsOne sbf_uniprocessor sbf_inverse_uniprocessor = none ∧
      exact_wcrt fuel tsOne sbf_uniprocessor sbf_inverse_uniprocessor = none) ∧
    ¬ (∃ fuel out,
        approx_wcrt fuel tsOne sbf_uniprocessor sbf_inverse_uniprocessor
          = some out) ∧
    ¬ (∃ fuel out,
        exact_wcrt fuel tsOne sbf_uniprocessor sbf_inverse_uniprocessor
          = some out) := by
  have hmain : ∀ fuel,
      approx_wcrt fuel tsOne sbf_uniprocessor sbf_inverse_uniprocessor = none ∧
      exact_wcrt fuel tsOne sbf_uniprocessor sbf_inverse_uniprocessor = none := by
    intro fuel
    constructor
    · unfold approx_wcrt
      rw [if_neg (by rw [utilization_tsOne]; norm_num)]
      show (match delta_values fuel tsOne sbf_uniprocessor with
        | none => (none : Option Outcome)
        | some deltas =>
            match approx_loop tsOne sbf_inverse_uniprocessor deltas 0
                (List.replicate tsOne.length none) with
            | .ok s => some (.done (finalize tsOne s))
            | .oob => some .error
            | .nofuel => none) = none
      rw [delta_values_tsOne_none fuel]
    · unfold exact_wcrt
      rw [if_neg (by rw [utilization_tsOne]; norm_num)]
      show (match delta_values fuel tsOne sbf_uniprocessor with
        | none => (none : Option Outcome)
        | some deltas =>
            match exact_loop tsOne sbf_inverse_uniprocessor fuel deltas 0
                (List.replicate tsOne.length none) with
            | .ok s => some (.done (finalize tsOne s))
            | .oob => some .error
            | .nofuel => none) = none
      rw [delta_values_tsOne_none fuel]
  refine ⟨by rw [utilization_tsOne], hmain, ?_, ?_⟩
  · rintro ⟨fuel, out, h⟩
    rw [(hmain fuel).1] at h
    cases h
  · rintro ⟨fuel, out, h⟩
    rw [(hmain fuel).2] at h
    cases h

/-- C3 (counterexample): the unit task set is non-empty and has
utilization ≤ 1, yet `find_L_prime` does not terminate on it — the claim's
domain must exclude utilization exactly 1. -/
theorem C3_counterexample_util_one :
    tsOne ≠ [] ∧ utilization tsOne ≤ 1 ∧
    (∀ fuel, find_L_prime fuel tsOne sbf_uniprocessor = none) ∧
    ¬ (∃ fuel l, find_L_prime fuel tsOne sbf_uniprocessor = some l) := by
  refine ⟨by simp [tsOne], by rw [utilization_tsOne],
    fun fuel => find_L_prime_fuel_tsOne_none fuel 0 le_rfl, ?_⟩
  rintro ⟨fuel, l, h⟩
  have h2 : find_L_prime fuel tsOne sbf_uniprocessor = none :=
    find_L_prime_fuel_tsOne_none fuel 0 le_rfl
  rw [h2] at h
  cases h

/-! ### Claim C3 (amended): termination of the horizon scan for
utilization < 1 -/

lemma rbf_i_closed (t : Task) (hc : 0 < t.cost) (hp : 0 < t.period)
    (hd : 0 < t.deadline) (l : Int) (hl : 0 ≤ l) :
    rbf_i t l = (Int.fdiv l t.period + 1) * t.cost := by
  rw [rbf_i, if_neg (by omega), dbf_i, if_neg (by omega),
    show l + t.deadline - t.deadline = l by ring]
  have h1 : 0 ≤ Int.fdiv l t.period := Int.fdiv_nonneg hl hp.le
  exact max_eq_right (mul_pos (by omega) hc).le

lemma rbf_i_le_lin (t : Task) (hc : 0 < t.cost) (hp : 0 < t.period)
    (hd : 0 < t.deadline) (l : Int) (hl : 0 ≤ l) :
    ((rbf_i t l : ℤ) : ℚ) ≤
      (l : ℚ) * ((t.cost : ℚ) / (t.period : ℚ)) + (t.cost : ℚ) := by
  rw [rbf_i_closed t hc hp hd l hl]
  have hTq : (0 : ℚ) < (t.period : ℚ) := by exact_mod_cast hp
  have hfl : ((Int.fdiv l t.period : ℤ) : ℚ) ≤ (l : ℚ) / (t.period : ℚ) := by
    rw [fdiv_eq_rat_floor l t.period hp]
    exact_mod_cast Int.floor_le ((l : ℚ) / (t.period : ℚ))
  have hcq : (0 : ℚ) ≤ (t.cost : ℚ) := by exact_mod_cast hc.le
  push_cast
  calc ((Int.fdiv l t.period : ℤ) + 1 : ℚ) * (t.cost : ℚ)
      ≤ ((l : ℚ) / (t.period : ℚ) + 1) * (t.cost : ℚ) := by
        apply mul_le_mul_of_nonneg_right _ hcq
        linarith
    _ = (l : ℚ) * ((t.cost : ℚ) / (t.period : ℚ)) + (t.cost : ℚ) := by
        field_simp
        ring

lemma rbf_le_lin (ts : List Task)
    (hpos : ∀ t ∈ ts, 0 < t.cost ∧ 0 < t.period ∧ 0 < t.deadline)
    (l : Int) (hl : 0 ≤ l) :
    ((rbf ts l : ℤ) : ℚ) ≤
      (l : ℚ) * utilization ts + (((ts.map Task.cost).sum : ℤ) : ℚ) := by
  induction ts with
  | nil => simp [rbf, utilization]
  | cons t ts ih =>
      have ht := hpos t (by simp)
      have hts : ∀ u ∈ ts, 0 < u.cost ∧ 0 < u.period ∧ 0 < u.deadline :=
        fun u hu => hpos u (by simp [hu])
      have hrest := ih hts
      have hone := rbf_i_le_lin t ht.1 ht.2.1 ht.2.2 l hl
      have hsplit : rbf (t :: ts) l = rbf_i t l + rbf ts l := by
        rw [rbf, rbf, if_neg (by omega), if_neg (by omega), List.map_cons,
          List.sum_cons]
      have huti : utilization (t :: ts)
          = (t.cost : ℚ) / (t.period : ℚ) + utilization ts := by
        rw [utilization, utilization, List.map_cons, List.sum_cons]
      have hsum : ((((t :: ts).map Task.cost).sum : ℤ) : ℚ)
          = (t.cost : ℚ) + (((ts.map Task.cost).sum : ℤ) : ℚ) := by
        rw [List.map_cons, List.sum_cons]
        push_cast
        ring
      rw [hsplit, huti, hsum]
      have hdist : (l : ℚ) * ((t.cost : ℚ) / (t.period : ℚ) + utilization ts)
            + ((t.cost : ℚ) + (((ts.map Task.cost).sum : ℤ) : ℚ))
          = ((l : ℚ) * ((t.cost : ℚ) / (t.period : ℚ)) + (t.cost : ℚ))
            + ((l : ℚ) * utilization ts + (((ts.map Task.cost).sum : ℤ) : ℚ)) := by
        ring
      rw [hdist]
      push_cast
      push_cast at hone hrest
      linarith

lemma find_L_prime_fuel_finds (ts : List Task) (sbf : Int → Int) :
    ∀ (n : Nat) (l : Int), rbf ts (l + (n : Int)) ≤ sbf (l + (n : Int)) →
      ∃ m, find_L_prime_fuel ts sbf (n + 1) l = some m ∧
        rbf ts m ≤ sbf m ∧ l ≤ m ∧
        ∀ k, l ≤ k → k < m → ¬ (rbf ts k ≤ sbf k) := by
  intro n
  induction n with
  | zero =>
      intro l h
      simp only [Nat.cast_zero, add_zero] at h
      refine ⟨l, ?_, h, le_refl l, ?_⟩
      · rw [find_L_prime_fuel, if_pos h]
      · intro k hk1 hk2
        omega
  | succ n ih =>
      intro l h
      by_cases hcond : rbf ts l ≤ sbf l
      · refine ⟨l, ?_, hcond, le_refl l, ?_⟩
        · rw [find_L_prime_fuel, if_pos hcond]
        · intro k hk1 hk2
          omega
      · have h' : rbf ts (l + 1 + (n : Int)) ≤ sbf (l + 1 + (n : Int)) := by
          have harith : l + 1 + (n : Int) = l + ((n + 1 : Nat) : Int) := by
            push_cast
            ring
          rw [harith]
          exact h
        obtain ⟨m, heq, hm, hlm, hleast⟩ := ih (l + 1) h'
        refine ⟨m, ?_, hm, by omega, ?_⟩
        · rw [find_L_prime_fuel, if_neg hcond]
          exact heq
        · intro k hk1 hk2
          rcases eq_or_lt_of_le hk1 with heq2 | hlt
          · rw [← heq2]
            exact hcond
          · exact hleast k (by omega) hk2

/-- C3 (amended with utilization strictly below 1): for every non-empty task
set with positive parameters and `utilization() < 1`, under the default
uniprocessor supply model `find_L_prime` terminates and returns the least
non-negative integer ℓ with `rbf(tskset, ℓ) ≤ supply_bound(ℓ)`. -/
theorem C3_find_L_prime_terminates (ts : List Task)
    (hne : ts ≠ [])
    (hpos : ∀ t ∈ ts, 0 < t.cost ∧ 0 < t.period ∧ 0 < t.deadline)
    (hu : utilization ts < 1) :
    ∃ fuel l, find_L_prime fuel ts sbf_uniprocessor = some l ∧ 0 ≤ l ∧
      rbf ts l ≤ sbf_uniprocessor l ∧
      ∀ m, 0 ≤ m → m < l → ¬ (rbf ts m ≤ sbf_uniprocessor m) := by
  have h1U : 0 < 1 - utilization ts := by linarith
  set S : ℚ := (((ts.map Task.cost).sum : ℤ) : ℚ) with hS
  set q : ℚ := S / (1 - utilization ts) with hq
  set l0 : Int := max ⌈q⌉ 0 with hl0
  have hl0nn : (0 : Int) ≤ l0 := le_max_right _ _
  have hql0 : q ≤ (l0 : ℚ) := by
    calc q ≤ (⌈q⌉ : ℚ) := Int.le_ceil q
      _ ≤ (l0 : ℚ) := by exact_mod_cast le_max_left ⌈q⌉ 0
  have hS_le : S ≤ (l0 : ℚ) * (1 - utilization ts) := by
    rw [hq, div_le_iff₀ h1U] at hql0
    linarith
  have hbound := rbf_le_lin ts hpos l0 hl0nn
  have hrle : ((rbf ts l0 : ℤ) : ℚ) ≤ (l0 : ℚ) := by
    calc ((rbf ts l0 : ℤ) : ℚ)
        ≤ (l0 : ℚ) * utilization ts + S := hbound
      _ ≤ (l0 : ℚ) * utilization ts + (l0 : ℚ) * (1 - utilization ts) := by
          linarith
      _ = (l0 : ℚ) := by ring
  have hrle' : rbf ts (0 + (l0.toNat : Int)) ≤
      sbf_uniprocessor (0 + (l0.toNat : Int)) := by
    rw [zero_add, Int.toNat_of_nonneg hl0nn]
    show rbf ts l0 ≤ l0
    exact_mod_cast hrle
  obtain ⟨m, heq, hm, h0m, hleast⟩ :=
    find_L_prime_fuel_finds ts sbf_uniprocessor l0.toNat 0 hrle'
  exact ⟨l0.toNat + 1, m, heq, h0m, hm, fun k hk1 hk2 => hleast k hk1 hk2⟩

/-- Witness for the amended C3 at the concrete task set `tsTwo`
(utilization 1/2). -/
theorem C3_find_L_prime_terminates_witness :
    tsTwo ≠ [] ∧
    (∀ t ∈ tsTwo, 0 < t.cost ∧ 0 < t.period ∧ 0 < t.deadline) ∧
    utilization tsTwo < 1 ∧
    (∃ fuel l, find_L_prime fuel tsTwo sbf_uniprocessor = some l ∧ 0 ≤ l ∧
      rbf tsTwo l ≤ sbf_uniprocessor l ∧
      ∀ m, 0 ≤ m → m < l → ¬ (rbf tsTwo m ≤ sbf_uniprocessor m)) :=
  ⟨by decide, by decide, by rw [utilization_tsTwo]; norm_num,
   C3_find_L_prime_terminates tsTwo (by decide) (by decide)
     (by rw [utilization_tsTwo]; norm_num)⟩

/-! ### Claim C8: the candidate test points -/

lemma mem_delta_values_from (ts : List Task) :
    ∀ (n : Nat) (d0 δ : Int),
      δ ∈ delta_values_from ts d0 n ↔
        d0 ≤ δ ∧ δ < d0 + (n : Int) ∧
          ts.any (fun t => δ % t.deadline == 0) = true := by
  intro n
  induction n with
  | zero =>
      intro d0 δ
      simp only [delta_values_from, List.not_mem_nil, false_iff]
      push_cast
      omega
  | succ n ih =>
      intro d0 δ
      rw [delta_values_from]
      by_cases hany : ts.any (fun t => d0 % t.deadline == 0) = true
      · rw [if_pos hany]
        simp only [List.cons_append, List.nil_append, List.mem_cons, ih]
        constructor
        · rintro (rfl | ⟨h1, h2, h3⟩)
          · exact ⟨le_refl δ, by push_cast; omega, hany⟩
          · exact ⟨by omega, by push_cast; push_cast at h2; omega, h3⟩
        · rintro ⟨h1, h2, h3⟩
          rcases eq_or_lt_of_le h1 with rfl | hlt
          · exact Or.inl rfl
          · exact Or.inr ⟨by omega, by push_cast; push_cast at h2; omega, h3⟩
      · rw [if_neg hany]
        simp only [List.nil_append, ih]
        constructor
        · rintro ⟨h1, h2, h3⟩
          exact ⟨by omega, by push_cast; push_cast at h2; omega, h3⟩
        · rintro ⟨h1, h2, h3⟩
          rcases eq_or_lt_of_le h1 with rfl | hlt
          · exact absurd h3 hany
          · exact ⟨by omega, by push_cast; push_cast at h2; omega, h3⟩

lemma pairwise_delta_values_from (ts : List Task) :
    ∀ (n : Nat) (d0 : Int),
      List.Pairwise (fun a b => a < b) (delta_values_from ts d0 n) := by
  intro n
  induction n with
  | zero => intro d0; exact List.Pairwise.nil
  | succ n ih =>
      intro d0
      rw [delta_values_from]
      by_cases hany : ts.any (fun t => d0 % t.deadline == 0) = true
      · rw [if_pos hany]
        simp only [List.cons_append, List.nil_append]
        refine List.Pairwise.cons ?_ (ih (d0 + 1))
        intro b hb
        have := (mem_delta_values_from ts n (d0 + 1) b).mp hb
        omega
      · rw [if_neg hany]
        simpa using ih (d0 + 1)

/-- C8: for a non-empty task set with positive deadlines on which `find_L`
terminated with horizon L, `delta_values` produces — finitely, in strictly
increasing order and each value exactly once — precisely the integers δ in
`[min(D_i), L]` with `δ mod D_i = 0` for at least one task, where
`L = find_L_prime + max(D_i)`. -/
theorem C8_delta_values_characterization (ts : List Task) (fuel : Nat)
    (L dmin : Int) (hne : ts ≠ [])
    (hpos : ∀ t ∈ ts, 0 < t.deadline)
    (hL : find_L fuel ts sbf_uniprocessor = some L)
    (hmin : min_deadline ts = some dmin) :
    ∃ ds, delta_values fuel ts sbf_uniprocessor = some ds ∧
      List.Pairwise (fun a b => a < b) ds ∧ ds.Nodup ∧
      (∀ δ, δ ∈ ds ↔ dmin ≤ δ ∧ δ ≤ L ∧ ∃ t ∈ ts, δ % t.deadline = 0) ∧
      (∀ lp md, find_L_prime fuel ts sbf_uniprocessor = some lp →
        max_deadline ts = some md → L = lp + md) := by
  refine ⟨delta_values_from ts dmin (L + 1 - dmin).toNat, ?_, ?_, ?_, ?_, ?_⟩
  · unfold delta_values
    rw [hL, hmin]
  · exact pairwise_delta_values_from ts _ dmin
  · exact (pairwise_delta_values_from ts _ dmin).imp ne_of_lt
  · intro δ
    rw [mem_delta_values_from ts _ dmin δ]
    constructor
    · rintro ⟨h1, h2, h3⟩
      refine ⟨h1, by omega, ?_⟩
      simpa [List.any_eq_true] using h3
    · rintro ⟨h1, h2, h3⟩
      refine ⟨h1, by omega, ?_⟩
      simpa [List.any_eq_true] using h3
  · intro lp md hlp hmd
    unfold find_L at hL
    rw [hlp, hmd] at hL
    exact (Option.some_injective _ hL).symm

/-- Witness for C8 at the concrete task set `tsAB` (horizon L = 9,
minimum deadline 4). -/
theorem C8_delta_values_characterization_witness :
    tsAB ≠ [] ∧ (∀ t ∈ tsAB, 0 < t.deadline) ∧
    find_L 10 tsAB sbf_uniprocessor = some 9 ∧
    min_deadline tsAB = some 4 ∧
    (∃ ds, delta_values 10 tsAB sbf_uniprocessor = some ds ∧
      List.Pairwise (fun a b => a < b) ds ∧ ds.Nodup ∧
      (∀ δ, δ ∈ ds ↔ 4 ≤ δ ∧ δ ≤ 9 ∧ ∃ t ∈ tsAB, δ % t.deadline = 0) ∧
      (∀ lp md, find_L_prime 10 tsAB sbf_uniprocessor = some lp →
        max_deadline tsAB = some md → (9 : Int) = lp + md)) :=
  ⟨by decide, by decide, by decide, by decide,
   C8_delta_values_characterization tsAB 10 9 4 (by decide) (by decide)
     (by decide) (by decide)⟩

/-! ### Claim C5: the break condition and the last task's slack -/

lemma approx_loop_break (ts : List Task) (inv : Int → Int)
    (deltas : List Int) (i : Nat) (s : List (Option Int))
    (h : ts.length ≤ i + 1) : approx_loop ts inv deltas i s = .ok s := by
  cases deltas with
  | nil => rfl
  | cons delta rest => rw [approx_loop, if_pos h]

lemma exact_loop_break (ts : List Task) (inv : Int → Int) (fuel : Nat)
    (deltas : List Int) (i : Nat) (s : List (Option Int))
    (h : ts.length ≤ i + 1) : exact_loop ts inv fuel deltas i s = .ok s := by
  cases deltas with
  | nil => rfl
  | cons delta rest => rw [exact_loop, if_pos h]

lemma approx_loop_cons_oob (ts : List Task) (inv : Int → Int) (delta : Int)
    (rest : List Int) (i : Nat) (s : List (Option Int))
    (hlen : ¬ ts.length ≤ i + 1) (nxt : Task) (hnxt : ts[i+1]? = some nxt)
    (hs : s[if delta ≥ nxt.deadline then i + 1 else i]? = none) :
    approx_loop ts inv (delta :: rest) i s = .oob := by
  simp only [approx_loop, if_neg hlen, hnxt, hs]

lemma approx_loop_cons_step (ts : List Task) (inv : Int → Int) (delta : Int)
    (rest : List Int) (i : Nat) (s : List (Option Int))
    (hlen : ¬ ts.length ≤ i + 1) (nxt : Task) (sj : Option Int)
    (hnxt : ts[i+1]? = some nxt)
    (hs : s[if delta ≥ nxt.deadline then i + 1 else i]? = some sj) :
    approx_loop ts inv (delta :: rest) i s =
      approx_loop ts inv rest (if delta ≥ nxt.deadline then i + 1 else i)
        (s.set (if delta ≥ nxt.deadline then i + 1 else i)
          (smin sj (some (delta - inv (dbf ts delta))))) := by
  simp only [approx_loop, if_neg hlen, hnxt, hs]

lemma exact_loop_cons_step (ts : List Task) (inv : Int → Int) (fuel : Nat)
    (delta : Int) (rest : List Int) (i : Nat) (s : List (Option Int))
    (hlen : ¬ ts.length ≤ i + 1) (nxt : Task) (sj : Option Int)
    (hnxt : ts[i+1]? = some nxt)
    (hs : s[if delta ≥ nxt.deadline then i + 1 else i]? = some sj) :
    exact_loop ts inv fuel (delta :: rest) i s =
      if sltInf (delta - inv (dbf ts delta)) sj then
        match gamma_iter ts inv delta fuel 0 with
        | none => .nofuel
        | some g =>
            exact_loop ts inv fuel rest
              (if delta ≥ nxt.deadline then i + 1 else i)
              (s.set (if delta ≥ nxt.deadline then i + 1 else i)
                (smin sj (some (delta - g))))
      else
        exact_loop ts inv fuel rest
          (if delta ≥ nxt.deadline then i + 1 else i) s := by
  simp only [exact_loop, if_neg hlen, hnxt, hs]

lemma lt_length_of_getElem?_eq_some {α : Type} {l : List α} {i : Nat} {a : α}
    (h : l[i]? = some a) : i < l.length := by
  by_contra hcon
  rw [List.getElem?_eq_none (by omega)] at h
  cases h

/-- In the approximate δ-loop the slack of the last task index changes at
most once: either it keeps its incoming value, or exactly one tested δ
contributed one `min`-update to it. -/
lemma approx_loop_last_slack (ts : List Task) (inv : Int → Int) :
    ∀ (deltas : List Int) (i : Nat) (s sout : List (Option Int)),
      approx_loop ts inv deltas i s = .ok sout →
      sout[ts.length - 1]? = s[ts.length - 1]? ∨
      ∃ δ ∈ deltas, ∃ sj, s[ts.length - 1]? = some sj ∧
        sout[ts.length - 1]? = some (smin sj (some (δ - inv (dbf ts δ)))) := by
  intro deltas
  induction deltas with
  | nil =>
      intro i s sout h
      rw [approx_loop] at h
      injection h with h'
      exact Or.inl (by rw [h'])
  | cons delta rest ih =>
      intro i s sout h
      by_cases hbreak : ts.length ≤ i + 1
      · rw [approx_loop_break ts inv _ i s hbreak] at h
        injection h with h'
        exact Or.inl (by rw [h'])
      · have hi1 : i + 1 < ts.length := by omega
        have hnxt : ts[i+1]? = some ts[i+1] := List.getElem?_eq_getElem hi1
        cases hs : s[if delta ≥ ts[i+1].deadline then i + 1 else i]? with
        | none =>
            rw [approx_loop_cons_oob ts inv delta rest i s hbreak ts[i+1]
              hnxt hs] at h
            cases h
        | some sj =>
            rw [approx_loop_cons_step ts inv delta rest i s hbreak ts[i+1] sj
              hnxt hs] at h
            have hjlt : (if delta ≥ ts[i+1].deadline then i + 1 else i)
                < s.length := lt_length_of_getElem?_eq_some hs
            by_cases hlast :
                (if delta ≥ ts[i+1].deadline then i + 1 else i)
                  = ts.length - 1
            · rw [approx_loop_break ts inv rest _ _ (by omega)] at h
              injection h with h'
              refine Or.inr ⟨delta, by simp, sj, ?_, ?_⟩
              · rw [← hlast]
                exact hs
              · rw [← h', ← hlast]
                exact List.getElem?_set_self hjlt
            · have hpres :
                  (s.set (if delta ≥ ts[i+1].deadline then i + 1 else i)
                    (smin sj (some (delta - inv (dbf ts delta)))))[ts.length - 1]?
                  = s[ts.length - 1]? := List.getElem?_set_ne hlast
              rcases ih _ _ _ h with hL | ⟨δ, hδ, sj', hs', hout⟩
              · exact Or.inl (by rw [hL, hpres])
              · rw [hpres] at hs'
                exact Or.inr ⟨δ, by simp [hδ], sj', hs', hout⟩

/-- In the exact δ-loop the slack of the last task index changes at most
once, by a single `min`-update against one tested δ. -/
lemma exact_loop_last_slack (ts : List Task) (inv : Int → Int) (fuel : Nat) :
    ∀ (deltas : List Int) (i : Nat) (s sout : List (Option Int)),
      exact_loop ts inv fuel deltas i s = .ok sout →
      sout[ts.length - 1]? = s[ts.length - 1]? ∨
      ∃ δ ∈ deltas, ∃ sj v, s[ts.length - 1]? = some sj ∧
        sout[ts.length - 1]? = some (smin sj (some v)) := by
  intro deltas
  induction deltas with
  | nil =>
      intro i s sout h
      rw [exact_loop] at h
      injection h with h'
      exact Or.inl (by rw [h'])
  | cons delta rest ih =>
      intro i s sout h
      by_cases hbreak : ts.length ≤ i + 1
      · rw [exact_loop_break ts inv fuel _ i s hbreak] at h
        injection h with h'
        exact Or.inl (by rw [h'])
      · have hi1 : i + 1 < ts.length := by omega
        have hnxt : ts[i+1]? = some ts[i+1] := List.getElem?_eq_getElem hi1
        cases hs : s[if delta ≥ ts[i+1].deadline then i + 1 else i]? with
        | none =>
            have hoob : exact_loop ts inv fuel (delta :: rest) i s = .oob := by
              simp only [exact_loop, if_neg hbreak, hnxt, hs]
            rw [hoob] at h
            cases h
        | some sj =>
            rw [exact_loop_cons_step ts inv fuel delta rest i s hbreak ts[i+1]
              sj hnxt hs] at h
            have hjlt : (if delta ≥ ts[i+1].deadline then i + 1 else i)
                < s.length := lt_length_of_getElem?_eq_some hs
            by_cases himp : sltInf (delta - inv (dbf ts delta)) sj = true
            · rw [if_pos himp] at h
              cases hg : gamma_iter ts inv delta fuel 0 with
              | none => simp only [hg] at h; cases h
              | some g =>
                  simp only [hg] at h
                  by_cases hlast :
                      (if delta ≥ ts[i+1].deadline then i + 1 else i)
                        = ts.length - 1
                  · rw [exact_loop_break ts inv fuel rest _ _ (by omega)] at h
                    injection h with h'
                    refine Or.inr ⟨delta, by simp, sj, delta - g, ?_, ?_⟩
                    · rw [← hlast]
                      exact hs
                    · rw [← h', ← hlast]
                      exact List.getElem?_set_self hjlt
                  · have hpres :
                        (s.set (if delta ≥ ts[i+1].deadline then i + 1 else i)
                          (smin sj (some (delta - g))))[ts.length - 1]?
                        = s[ts.length - 1]? := List.getElem?_set_ne hlast
                    rcases ih _ _ _ h with hL | ⟨δ, hδ, sj', v, hs', hout⟩
                    · exact Or.inl (by rw [hL, hpres])
                    · rw [hpres] at hs'
                      exact Or.inr ⟨δ, by simp [hδ], sj', v, hs', hout⟩
            · rw [if_neg himp] at h
              rcases ih _ _ _ h with hL | ⟨δ, hδ, sj', v, hs', hout⟩
              · exact Or.inl hL
              · exact Or.inr ⟨δ, by simp [hδ], sj', v, hs', hout⟩

/-- C5 (counterexample): on the two-task set `tsTwo` the actual run of the
approximate δ-loop over its own candidate sequence `[1, 2, 3, 4]` leaves the
final slack array `[some 0, some 0]`, whose last entry differs from its
initial value `none` — the last task's slack was updated directly at the
test point δ = 2, so the claim that `s[last]` keeps its initial value until
the finalization pass is false.  The exact loop behaves identically. -/
theorem C5_counterexample_last_updated :
    delta_values 20 tsTwo sbf_uniprocessor = some [1, 2, 3, 4] ∧
    approx_loop tsTwo sbf_inverse_uniprocessor [1, 2, 3, 4] 0
      (List.replicate tsTwo.length none) = .ok [some 0, some 0] ∧
    exact_loop tsTwo sbf_inverse_uniprocessor 20 [1, 2, 3, 4] 0
      (List.replicate tsTwo.length none) = .ok [some 0, some 0] ∧
    ([some 0, some 0] : List (Option Int))[tsTwo.length - 1]? ≠
      (List.replicate tsTwo.length (none : Option Int))[tsTwo.length - 1]? := by
  refine ⟨by decide, by decide, by decide, by decide⟩

/-- C5 (amended): in both solvers' δ-loops, iteration stops at the first
candidate δ examined with the pointer `i` already at the last task index
(returning the slack array unchanged), and the final task's slack receives
at most one direct update — at the single δ whose examination advances the
pointer to the last index — rather than none. -/
theorem C5_break_and_single_last_update :
    (∀ (ts : List Task) (inv : Int → Int) (deltas : List Int) (i : Nat)
        (s : List (Option Int)), ts.length ≤ i + 1 →
        approx_loop ts inv deltas i s = .ok s ∧
        ∀ fuel, exact_loop ts inv fuel deltas i s = .ok s) ∧
    (∀ (ts : List Task) (inv : Int → Int) (deltas : List Int) (i : Nat)
        (s sout : List (Option Int)),
        approx_loop ts inv deltas i s = .ok sout →
        sout[ts.length - 1]? = s[ts.length - 1]? ∨
        ∃ δ ∈ deltas, ∃ sj, s[ts.length - 1]? = some sj ∧
          sout[ts.length - 1]? = some (smin sj (some (δ - inv (dbf ts δ))))) ∧
    (∀ (ts : List Task) (inv : Int → Int) (fuel : Nat) (deltas : List Int)
        (i : Nat) (s sout : List (Option Int)),
        exact_loop ts inv fuel deltas i s = .ok sout →
        sout[ts.length - 1]? = s[ts.length - 1]? ∨
        ∃ δ ∈ deltas, ∃ sj v, s[ts.length - 1]? = some sj ∧
          sout[ts.length - 1]? = some (smin sj (some v))) := by
  refine ⟨?_, ?_, ?_⟩
  · intro ts inv deltas i s h
    exact ⟨approx_loop_break ts inv deltas i s h,
      fun fuel => exact_loop_break ts inv fuel deltas i s h⟩
  · intro ts inv deltas i s sout h
    exact approx_loop_last_slack ts inv deltas i s sout h
  · intro ts inv fuel deltas i s sout h
    exact exact_loop_last_slack ts inv fuel deltas i s sout h

/-- Witness for the amended C5 at the concrete run on `tsTwo`. -/
theorem C5_break_and_single_last_update_witness :
    (approx_loop tsTwo sbf_inverse_uniprocessor [3, 4] 1 [some 0, some 0]
        = .ok [some 0, some 0] ∧
      ∀ fuel, exact_loop tsTwo sbf_inverse_uniprocessor fuel [3, 4] 1
        [some 0, some 0] = .ok [some 0, some 0]) ∧
    (([some 0, some 0] : List (Option Int))[tsTwo.length - 1]?
        = (List.replicate tsTwo.length (none : Option Int))[tsTwo.length - 1]? ∨
      ∃ δ ∈ [(1 : Int), 2, 3, 4], ∃ sj,
        (List.replicate tsTwo.length (none : Option Int))[tsTwo.length - 1]?
          = some sj ∧
        ([some 0, some 0] : List (Option Int))[tsTwo.length - 1]?
          = some (smin sj (some (δ - sbf_inverse_uniprocessor (dbf tsTwo δ))))) :=
  ⟨C5_break_and_single_last_update.1 tsTwo sbf_inverse_uniprocessor [3, 4] 1
      [some 0, some 0] (by decide),
   C5_break_and_single_last_update.2.1 tsTwo sbf_inverse_uniprocessor
      [1, 2, 3, 4] 0 (List.replicate tsTwo.length none) [some 0, some 0]
      (by decide)⟩

/-! ### Claim C4: the exact analysis tightens the approximate one -/

lemma smin_sle_left (a b : Option Int) : sle (smin a b) a := by
  cases a <;> cases b <;> simp [smin, sle]

lemma smin_mono : ∀ {a a' b b' : Option Int},
    sle a a' → sle b b' → sle (smin a b) (smin a' b') := by
  intro a a' b b' h1 h2
  cases a <;> cases a' <;> cases b <;> cases b' <;>
    simp_all [smin, sle] <;> omega

lemma resp_antitone (d : Int) {x y : Option Int} (h : sle x y) :
    rle (resp d y) (resp d x) := by
  cases x <;> cases y <;> simp_all [sle, rle, resp] <;> omega

lemma forall₂_getElem_some {R : Option Int → Option Int → Prop} :
    ∀ {l1 l2 : List (Option Int)}, List.Forall₂ R l1 l2 →
      ∀ {j : Nat} {a b : Option Int},
        l1[j]? = some a → l2[j]? = some b → R a b := by
  intro l1 l2 h
  induction h with
  | nil =>
      intro j a b h1 _
      simp at h1
  | cons hR _ ih =>
      intro j a b h1 h2
      cases j with
      | zero =>
          simp only [List.getElem?_cons_zero] at h1 h2
          injection h1 with e1
          injection h2 with e2
          rw [← e1, ← e2]
          exact hR
      | succ n =>
          simp only [List.getElem?_cons_succ] at h1 h2
          exact ih h1 h2

lemma forall₂_set {R : Option Int → Option Int → Prop} :
    ∀ {l1 l2 : List (Option Int)}, List.Forall₂ R l1 l2 →
      ∀ (j : Nat) {x y : Option Int}, R x y →
        List.Forall₂ R (l1.set j x) (l2.set j y) := by
  intro l1 l2 h
  induction h with
  | nil =>
      intro j x y _
      exact List.Forall₂.nil
  | cons hR hrest ih =>
      intro j x y hxy
      cases j with
      | zero =>
          simp only [List.set_cons_zero]
          exact List.Forall₂.cons hxy hrest
      | succ n =>
          simp only [List.set_cons_succ]
          exact List.Forall₂.cons hR (ih n hxy)

lemma forall₂_sle_replicate (n : Nat) :
    List.Forall₂ sle (List.replicate n none) (List.replicate n (none : Option Int)) := by
  induction n with
  | zero => exact List.Forall₂.nil
  | succ n ih =>
      rw [List.replicate_succ]
      exact List.Forall₂.cons (by simp [sle]) ih

lemma suffix_min_mono : ∀ {sa se : List (Option Int)},
    List.Forall₂ sle sa se → sle (suffix_min sa) (suffix_min se) := by
  intro sa se h
  induction h with
  | nil => simp [suffix_min, sle]
  | cons hR _ ih => exact smin_mono hR ih

lemma dbf_i_nonneg (t : Task) (x : Int) : 0 ≤ dbf_i t x := by
  rw [dbf_i]
  split
  · exact le_refl 0
  · exact le_max_left 0 _

lemma mbf_le_dbf (ts : List Task) (delta gamma : Int) :
    mbf ts delta gamma ≤ dbf ts delta := by
  by_cases hδ : delta ≤ 0
  · rw [dbf, if_pos hδ, mbf]
    have hle : ∀ t ∈ ts, mbf_i t delta gamma ≤ (fun _ => (0 : Int)) t := by
      intro t _
      rw [mbf_i, dbf_i, if_pos hδ]
      exact min_le_left 0 _
    calc (ts.map fun t => mbf_i t delta gamma).sum
        ≤ (ts.map fun _ => (0 : Int)).sum := List.sum_le_sum hle
      _ = 0 := by simp
  · rw [dbf, if_neg hδ, mbf]
    apply List.sum_le_sum
    intro t _
    rw [mbf_i]
    exact min_le_left _ _

lemma gamma_iter_fix (ts : List Task) (inv : Int → Int) (delta : Int) :
    ∀ (fuel : Nat) (x g : Int), gamma_iter ts inv delta fuel x = some g →
      g = inv (mbf ts delta g) := by
  intro fuel
  induction fuel with
  | zero =>
      intro x g h
      cases h
  | succ n ih =>
      intro x g h
      rw [gamma_iter] at h
      by_cases hfix : inv (mbf ts delta x) = x
      · rw [if_pos hfix] at h
        injection h with h'
        have hgx : g = x := by rw [← h', hfix]
        rw [hgx]
        exact hfix.symm
      · rw [if_neg hfix] at h
        exact ih _ _ h

lemma find_L_prime_fuel_det (ts : List Task) (sbf : Int → Int) :
    ∀ (f1 : Nat) (l m1 : Int), find_L_prime_fuel ts sbf f1 l = some m1 →
      ∀ (f2 : Nat) (m2 : Int), find_L_prime_fuel ts sbf f2 l = some m2 →
        m1 = m2 := by
  intro f1
  induction f1 with
  | zero =>
      intro l m1 h
      cases h
  | succ n ih =>
      intro l m1 h1 f2 m2 h2
      cases f2 with
      | zero => cases h2
      | succ n2 =>
          rw [find_L_prime_fuel] at h1 h2
          by_cases hcond : rbf ts l ≤ sbf l
          · rw [if_pos hcond] at h1 h2
            injection h1 with e1
            injection h2 with e2
            rw [← e1, ← e2]
          · rw [if_neg hcond] at h1 h2
            exact ih _ _ h1 _ _ h2

lemma find_L_det (ts : List Task) (sbf : Int → Int) {f1 f2 : Nat} {L1 L2 : Int}
    (h1 : find_L f1 ts sbf = some L1) (h2 : find_L f2 ts sbf = some L2) :
    L1 = L2 := by
  unfold find_L at h1 h2
  cases hp1 : find_L_prime f1 ts sbf with
  | none =>
      simp only [hp1] at h1
      cases h1
  | some lp1 =>
      cases hmd : max_deadline ts with
      | none =>
          simp only [hp1, hmd] at h1
          cases h1
      | some md =>
          simp only [hp1, hmd] at h1
          cases hp2 : find_L_prime f2 ts sbf with
          | none =>
              simp only [hp2] at h2
              cases h2
          | some lp2 =>
              simp only [hp2, hmd] at h2
              have hp1' : find_L_prime_fuel ts sbf f1 0 = some lp1 := hp1
              have hp2' : find_L_prime_fuel ts sbf f2 0 = some lp2 := hp2
              have hlp : lp1 = lp2 :=
                find_L_prime_fuel_det ts sbf f1 0 lp1 hp1' f2 lp2 hp2'
              injection h1 with e1
              injection h2 with e2
              rw [← e1, ← e2, hlp]

lemma delta_values_det (ts : List Task) (sbf : Int → Int) {f1 f2 : Nat}
    {d1 d2 : List Int} (h1 : delta_values f1 ts sbf = some d1)
    (h2 : delta_values f2 ts sbf = some d2) : d1 = d2 := by
  unfold delta_values at h1 h2
  cases hL1 : find_L f1 ts sbf with
  | none =>
      simp only [hL1] at h1
      cases h1
  | some L1 =>
      cases hmin : min_deadline ts with
      | none =>
          simp only [hL1, hmin] at h1
          cases h1
      | some d0 =>
          simp only [hL1, hmin] at h1
          cases hL2 : find_L f2 ts sbf with
          | none =>
              simp only [hL2] at h2
              cases h2
          | some L2 =>
              simp only [hL2, hmin] at h2
              have hLeq : L1 = L2 := find_L_det ts sbf hL1 hL2
              injection h1 with e1
              injection h2 with e2
              rw [← e1, ← e2, hLeq]

lemma approx_loop_length (ts : List Task) (inv : Int → Int) :
    ∀ (deltas : List Int) (i : Nat) (s sout : List (Option Int)),
      approx_loop ts inv deltas i s = .ok sout → sout.length = s.length := by
  intro deltas
  induction deltas with
  | nil =>
      intro i s sout h
      rw [approx_loop] at h
      injection h with h'
      rw [h']
  | cons delta rest ih =>
      intro i s sout h
      by_cases hbreak : ts.length ≤ i + 1
      · rw [approx_loop_break ts inv _ i s hbreak] at h
        injection h with h'
        rw [h']
      · have hi1 : i + 1 < ts.length := by omega
        have hnxt : ts[i+1]? = some ts[i+1] := List.getElem?_eq_getElem hi1
        cases hs : s[if delta ≥ ts[i+1].deadline then i + 1 else i]? with
        | none =>
            rw [approx_loop_cons_oob ts inv delta rest i s hbreak ts[i+1]
              hnxt hs] at h
            cases h
        | some sj =>
            rw [approx_loop_cons_step ts inv delta rest i s hbreak ts[i+1] sj
              hnxt hs] at h
            have := ih _ _ _ h
            rw [this, List.length_set]

lemma exact_loop_length (ts : List Task) (inv : Int → Int) (fuel : Nat) :
    ∀ (deltas : List Int) (i : Nat) (s sout : List (Option Int)),
      exact_loop ts inv fuel deltas i s = .ok sout → sout.length = s.length := by
  intro deltas
  induction deltas with
  | nil =>
      intro i s sout h
      rw [exact_loop] at h
      injection h with h'
      rw [h']
  | cons delta rest ih =>
      intro i s sout h
      by_cases hbreak : ts.length ≤ i + 1
      · rw [exact_loop_break ts inv fuel _ i s hbreak] at h
        injection h with h'
        rw [h']
      · have hi1 : i + 1 < ts.length := by omega
        have hnxt : ts[i+1]? = some ts[i+1] := List.getElem?_eq_getElem hi1
        cases hs : s[if delta ≥ ts[i+1].deadline then i + 1 else i]? with
        | none =>
            have hoob : exact_loop ts inv fuel (delta :: rest) i s = .oob := by
              simp only [exact_loop, if_neg hbreak, hnxt, hs]
            rw [hoob] at h
            cases h
        | some sj =>
            rw [exact_loop_cons_step ts inv fuel delta rest i s hbreak ts[i+1]
              sj hnxt hs] at h
            by_cases himp : sltInf (delta - inv (dbf ts delta)) sj = true
            · rw [if_pos himp] at h
              cases hg : gamma_iter ts inv delta fuel 0 with
              | none =>
                  simp only [hg] at h
                  cases h
              | some g =>
                  simp only [hg] at h
                  have := ih _ _ _ h
                  rw [this, List.length_set]
            · rw [if_neg himp] at h
              exact ih _ _ _ h

lemma sle_trans {a b c : Option Int} (h1 : sle a b) (h2 : sle b c) :
    sle a c := by
  cases a <;> cases b <;> cases c <;> simp_all [sle] <;> omega

lemma rle_refl (a : Option Int) : rle a a := by
  cases a <;> simp [rle]

lemma forall₂_set_left {R : Option Int → Option Int → Prop} :
    ∀ {l1 l2 : List (Option Int)}, List.Forall₂ R l1 l2 →
      ∀ {j : Nat} {x b : Option Int}, l2[j]? = some b → R x b →
        List.Forall₂ R (l1.set j x) l2 := by
  intro l1 l2 h
  induction h with
  | nil =>
      intro j x b hb _
      simp at hb
  | cons hR hrest ih =>
      intro j x b hb hxb
      cases j with
      | zero =>
          simp only [List.getElem?_cons_zero] at hb
          injection hb with e
          simp only [List.set_cons_zero]
          exact List.Forall₂.cons (by rw [e]; exact hxb) hrest
      | succ n =>
          simp only [List.getElem?_cons_succ] at hb
          simp only [List.set_cons_succ]
          exact List.Forall₂.cons hR (ih hb hxb)

/-- Per-δ invariant: under the uniprocessor supply inverse, the slack array
of the approximate loop stays pointwise below (finer ≤) the slack array of
the exact loop, because the exact update `δ - γ` with
`γ = mbf(δ, γ) ≤ dbf(δ)` is at least the approximate candidate
`δ - dbf(δ)`. -/
lemma exact_le_approx_loop (ts : List Task) (fuel : Nat) :
    ∀ (deltas : List Int) (i : Nat) (sa se sa' se' : List (Option Int)),
      List.Forall₂ sle sa se →
      approx_loop ts sbf_inverse_uniprocessor deltas i sa = .ok sa' →
      exact_loop ts sbf_inverse_uniprocessor fuel deltas i se = .ok se' →
      List.Forall₂ sle sa' se' := by
  intro deltas
  induction deltas with
  | nil =>
      intro i sa se sa' se' hF ha he
      rw [approx_loop] at ha
      rw [exact_loop] at he
      injection ha with ea
      injection he with ee
      rw [← ea, ← ee]
      exact hF
  | cons delta rest ih =>
      intro i sa se sa' se' hF ha he
      by_cases hbreak : ts.length ≤ i + 1
      · rw [approx_loop_break _ _ _ _ _ hbreak] at ha
        rw [exact_loop_break _ _ _ _ _ _ hbreak] at he
        injection ha with ea
        injection he with ee
        rw [← ea, ← ee]
        exact hF
      · have hi1 : i + 1 < ts.length := by omega
        have hnxt : ts[i+1]? = some ts[i+1] := List.getElem?_eq_getElem hi1
        have hlen : sa.length = se.length := hF.length_eq
        cases hsa : sa[if delta ≥ ts[i+1].deadline then i + 1 else i]? with
        | none =>
            rw [approx_loop_cons_oob _ _ _ _ _ _ hbreak _ hnxt hsa] at ha
            cases ha
        | some sja =>
            have hjlt : (if delta ≥ ts[i+1].deadline then i + 1 else i)
                < se.length := by
              rw [← hlen]
              exact lt_length_of_getElem?_eq_some hsa
            obtain ⟨sje, hse⟩ :
                ∃ x, se[if delta ≥ ts[i+1].deadline then i + 1 else i]? = some x :=
              ⟨_, List.getElem?_eq_getElem hjlt⟩
            have hR : sle sja sje := forall₂_getElem_some hF hsa hse
            rw [approx_loop_cons_step _ _ _ _ _ _ hbreak _ _ hnxt hsa] at ha
            rw [exact_loop_cons_step _ _ _ _ _ _ _ hbreak _ _ hnxt hse] at he
            by_cases himp :
                sltInf (delta - sbf_inverse_uniprocessor (dbf ts delta)) sje
                  = true
            · rw [if_pos himp] at he
              cases hg : gamma_iter ts sbf_inverse_uniprocessor delta fuel 0 with
              | none =>
                  simp only [hg] at he
                  cases he
              | some g =>
                  simp only [hg] at he
                  have hgfix : g = sbf_inverse_uniprocessor (mbf ts delta g) :=
                    gamma_iter_fix ts _ delta fuel 0 g hg
                  have hgle : g ≤ dbf ts delta := by
                    rw [hgfix]
                    exact mbf_le_dbf ts delta g
                  have hvle : sle
                      (smin sja (some (delta - sbf_inverse_uniprocessor (dbf ts delta))))
                      (smin sje (some (delta - g))) := by
                    apply smin_mono hR
                    show delta - sbf_inverse_uniprocessor (dbf ts delta) ≤ delta - g
                    show delta - dbf ts delta ≤ delta - g
                    omega
                  exact ih _ _ _ _ _ (forall₂_set hF _ hvle) ha he
            · rw [if_neg himp] at he
              have hnew : sle
                  (smin sja (some (delta - sbf_inverse_uniprocessor (dbf ts delta))))
                  sje :=
                sle_trans (smin_sle_left _ _) hR
              exact ih _ _ _ _ _ (forall₂_set_left hF hse hnew) ha he

/-- Pointwise response-time comparison through the finalization pass. -/
lemma finalizeSpec_rle : ∀ (ts : List Task) {sa se : List (Option Int)},
    List.Forall₂ sle sa se →
    ∀ (k : Nat) (ta te : Task), (finalizeSpec ts sa)[k]? = some ta →
      (finalizeSpec ts se)[k]? = some te →
      rle te.response_time ta.response_time := by
  intro ts
  induction ts with
  | nil =>
      intro sa se hF k ta te h1 h2
      cases sa <;> simp [finalizeSpec] at h1
  | cons t ts ih =>
      intro sa se hF k ta te h1 h2
      cases hF with
      | nil =>
          simp only [finalizeSpec] at h1 h2
          have : ta = te := by
            injection h1.symm.trans h2
          rw [this]
          exact rle_refl _
      | cons hR hrest =>
          simp only [finalizeSpec] at h1 h2
          cases k with
          | zero =>
              simp only [List.getElem?_cons_zero] at h1 h2
              injection h1 with e1
              injection h2 with e2
              rw [← e1, ← e2]
              exact resp_antitone t.deadline
                (smin_mono hR (suffix_min_mono hrest))
          | succ n =>
              simp only [List.getElem?_cons_succ] at h1 h2
              exact ih hrest n ta te h1 h2

lemma approx_wcrt_done_inversion {fuel : Nat} {ts : List Task}
    {sbf inv : Int → Int} {oa : List Task}
    (h : approx_wcrt fuel ts sbf inv = some (.done oa)) :
    ∃ t0 rest deltas s, sort_by_deadline ts = t0 :: rest ∧
      delta_values fuel (t0 :: rest) sbf = some deltas ∧
      approx_loop (t0 :: rest) inv deltas 0
        (List.replicate (t0 :: rest).length none) = .ok s ∧
      oa = finalize (t0 :: rest) s := by
  unfold approx_wcrt at h
  by_cases hu : utilization ts > 1
  · rw [if_pos hu] at h
    simp at h
  · rw [if_neg hu] at h
    cases hs : sort_by_deadline ts with
    | nil =>
        simp only [hs] at h
        simp at h
    | cons t0 rest =>
        simp only [hs] at h
        cases hd : delta_values fuel (t0 :: rest) sbf with
        | none =>
            simp only [hd] at h
            simp at h
        | some deltas =>
            simp only [hd] at h
            cases hl : approx_loop (t0 :: rest) inv deltas 0
                (List.replicate (t0 :: rest).length none) with
            | ok s =>
                simp only [hl] at h
                injection h with h1
                injection h1 with h2
                exact ⟨t0, rest, deltas, s, rfl, hd, hl, h2.symm⟩
            | oob =>
                simp only [hl] at h
                simp at h
            | nofuel =>
                simp only [hl] at h
                simp at h

lemma exact_wcrt_done_inversion {fuel : Nat} {ts : List Task}
    {sbf inv : Int → Int} {oe : List Task}
    (h : exact_wcrt fuel ts sbf inv = some (.done oe)) :
    ∃ t0 rest deltas s, sort_by_deadline ts = t0 :: rest ∧
      delta_values fuel (t0 :: rest) sbf = some deltas ∧
      exact_loop (t0 :: rest) inv fuel deltas 0
        (List.replicate (t0 :: rest).length none) = .ok s ∧
      oe = finalize (t0 :: rest) s := by
  unfold exact_wcrt at h
  by_cases hu : utilization ts > 1
  · rw [if_pos hu] at h
    simp at h
  · rw [if_neg hu] at h
    cases hs : sort_by_deadline ts with
    | nil =>
        simp only [hs] at h
        simp at h
    | cons t0 rest =>
        simp only [hs] at h
        cases hd : delta_values fuel (t0 :: rest) sbf with
        | none =>
            simp only [hd] at h
            simp at h
        | some deltas =>
            simp only [hd] at h
            cases hl : exact_loop (t0 :: rest) inv fuel deltas 0
                (List.replicate (t0 :: rest).length none) with
            | ok s =>
                simp only [hl] at h
                injection h with h1
                injection h1 with h2
                exact ⟨t0, rest, deltas, s, rfl, hd, hl, h2.symm⟩
            | oob =>
                simp only [hl] at h
                simp at h
            | nofuel =>
                simp only [hl] at h
                simp at h

/-- C4: for every task set with `utilization() ≤ 1` on which both analyses
terminate (under the default uniprocessor supply model), the response time
`exact_wcrt` assigns to each task is at most the response time `approx_wcrt`
assigns to the task at the same position. -/
theorem C4_exact_le_approx (ts : List Task) (f1 f2 : Nat) (oa oe : List Task)
    (hu : utilization ts ≤ 1)
    (ha : approx_wcrt f1 ts sbf_uniprocessor sbf_inverse_uniprocessor
      = some (.done oa))
    (he : exact_wcrt f2 ts sbf_uniprocessor sbf_inverse_uniprocessor
      = some (.done oe)) :
    ∀ (k : Nat) (ta te : Task), oa[k]? = some ta → oe[k]? = some te →
      rle te.response_time ta.response_time := by
  obtain ⟨t0, rest, da, sa, hsortA, hdA, hlA, hoaEq⟩ :=
    approx_wcrt_done_inversion ha
  obtain ⟨t0e, reste, de, se, hsortE, hdE, hlE, hoeEq⟩ :=
    exact_wcrt_done_inversion he
  have hsame : t0e :: reste = t0 :: rest := by
    rw [← hsortA, ← hsortE]
  rw [hsame] at hdE hlE hoeEq
  have hdeq : da = de := delta_values_det _ _ hdA hdE
  rw [← hdeq] at hlE
  have hF := exact_le_approx_loop (t0 :: rest) f2 da 0 _ _ _ _
    (forall₂_sle_replicate (t0 :: rest).length) hlA hlE
  have hlenA : (t0 :: rest).length = sa.length := by
    rw [approx_loop_length _ _ _ _ _ _ hlA, List.length_replicate]
  have hlenE : (t0 :: rest).length = se.length := by
    rw [exact_loop_length _ _ _ _ _ _ _ hlE, List.length_replicate]
  intro k ta te h1 h2
  rw [hoaEq, finalize_eq_spec _ _ hlenA] at h1
  rw [hoeEq, finalize_eq_spec _ _ hlenE] at h2
  exact finalizeSpec_rle (t0 :: rest) hF k ta te h1 h2

/-- The result of both analyses on the spec's concrete two-task scenario. -/
def tsAB_out : List Task := [⟨1, 4, 4, some 1⟩, ⟨2, 6, 6, some 3⟩]

lemma approx_wcrt_tsAB :
    approx_wcrt 20 tsAB sbf_uniprocessor sbf_inverse_uniprocessor
      = some (.done tsAB_out) := by
  unfold approx_wcrt
  rw [if_neg (by rw [utilization_tsAB]; norm_num)]
  decide

lemma exact_wcrt_tsAB :
    exact_wcrt 20 tsAB sbf_uniprocessor sbf_inverse_uniprocessor
      = some (.done tsAB_out) := by
  unfold exact_wcrt
  rw [if_neg (by rw [utilization_tsAB]; norm_num)]
  decide

/-- Witness for C4 at the spec's concrete scenario `tsAB`. -/
theorem C4_exact_le_approx_witness :
    utilization tsAB ≤ 1 ∧
    ∀ (k : Nat) (ta te : Task), tsAB_out[k]? = some ta →
      tsAB_out[k]? = some te → rle te.response_time ta.response_time :=
  ⟨by rw [utilization_tsAB]; norm_num,
   C4_exact_le_approx tsAB 20 20 tsAB_out tsAB_out
     (by rw [utilization_tsAB]; norm_num) approx_wcrt_tsAB exact_wcrt_tsAB⟩

/-! ### Claim C9: idempotence of re-analysis

Everything the algorithms read factors through the cost/period/deadline
projection `cpd`; `response_time` is write-only.  The lemmas below transport
every pipeline stage along equality of the `cpd` images. -/

lemma cpd_fields {t1 t2 : Task} (h : cpd t1 = cpd t2) :
    t1.cost = t2.cost ∧ t1.period = t2.period ∧ t1.deadline = t2.deadline := by
  unfold cpd at h
  injection h with h1 h23
  injection h23 with h2 h3
  exact ⟨h1, h2, h3⟩

lemma dbf_i_congr {t1 t2 : Task} (h : cpd t1 = cpd t2) (x : Int) :
    dbf_i t1 x = dbf_i t2 x := by
  obtain ⟨h1, h2, h3⟩ := cpd_fields h
  rw [dbf_i, dbf_i, h1, h2, h3]

lemma rbf_i_congr {t1 t2 : Task} (h : cpd t1 = cpd t2) (x : Int) :
    rbf_i t1 x = rbf_i t2 x := by
  obtain ⟨_, _, h3⟩ := cpd_fields h
  rw [rbf_i, rbf_i, h3, dbf_i_congr h]

lemma mbf_i_congr {t1 t2 : Task} (h : cpd t1 = cpd t2) (x y : Int) :
    mbf_i t1 x y = mbf_i t2 x y := by
  rw [mbf_i, mbf_i, dbf_i_congr h, rbf_i_congr h]

lemma dbf_congr : ∀ {ts1 ts2 : List Task}, ts1.map cpd = ts2.map cpd →
    ∀ x, dbf ts1 x = dbf ts2 x := by
  intro ts1
  induction ts1 with
  | nil =>
      intro ts2 h x
      cases ts2 with
      | nil => rfl
      | cons _ _ => simp at h
  | cons t ts ih =>
      intro ts2 h x
      cases ts2 with
      | nil => simp at h
      | cons u us =>
          simp only [List.map_cons, List.cons.injEq] at h
          obtain ⟨hhd, htl⟩ := h
          rw [dbf, dbf]
          by_cases hx : x ≤ 0
          · rw [if_pos hx, if_pos hx]
          · rw [if_neg hx, if_neg hx]
            simp only [List.map_cons, List.sum_cons]
            have htail := ih htl x
            rw [dbf, dbf, if_neg hx, if_neg hx] at htail
            rw [dbf_i_congr hhd x, htail]

lemma rbf_congr : ∀ {ts1 ts2 : List Task}, ts1.map cpd = ts2.map cpd →
    ∀ x, rbf ts1 x = rbf ts2 x := by
  intro ts1
  induction ts1 with
  | nil =>
      intro ts2 h x
      cases ts2 with
      | nil => rfl
      | cons _ _ => simp at h
  | cons t ts ih =>
      intro ts2 h x
      cases ts2 with
      | nil => simp at h
      | cons u us =>
          simp only [List.map_cons, List.cons.injEq] at h
          obtain ⟨hhd, htl⟩ := h
          rw [rbf, rbf]
          by_cases hx : x < 0
          · rw [if_pos hx, if_pos hx]
          · rw [if_neg hx, if_neg hx]
            simp only [List.map_cons, List.sum_cons]
            have htail := ih htl x
            rw [rbf, rbf, if_neg hx, if_neg hx] at htail
            rw [rbf_i_congr hhd x, htail]

lemma mbf_congr : ∀ {ts1 ts2 : List Task}, ts1.map cpd = ts2.map cpd →
    ∀ x y, mbf ts1 x y = mbf ts2 x y := by
  intro ts1
  induction ts1 with
  | nil =>
      intro ts2 h x y
      cases ts2 with
      | nil => rfl
      | cons _ _ => simp at h
  | cons t ts ih =>
      intro ts2 h x y
      cases ts2 with
      | nil => simp at h
      | cons u us =>
          simp only [List.map_cons, List.cons.injEq] at h
          obtain ⟨hhd, htl⟩ := h
          rw [mbf, mbf]
          simp only [List.map_cons, List.sum_cons]
          have htail := ih htl x y
          rw [mbf, mbf] at htail
          rw [mbf_i_congr hhd x y, htail]

lemma deadline_map_of_cpd : ∀ {ts1 ts2 : List Task},
    ts1.map cpd = ts2.map cpd →
    ts1.map Task.deadline = ts2.map Task.deadline := by
  intro ts1
  induction ts1 with
  | nil =>
      intro ts2 h
      cases ts2 with
      | nil => rfl
      | cons _ _ => simp at h
  | cons t ts ih =>
      intro ts2 h
      cases ts2 with
      | nil => simp at h
      | cons u us =>
          simp only [List.map_cons, List.cons.injEq] at h
          obtain ⟨hhd, htl⟩ := h
          simp only [List.map_cons, List.cons.injEq]
          exact ⟨(cpd_fields hhd).2.2, ih htl⟩

lemma max_deadline_congr {ts1 ts2 : List Task}
    (h : ts1.map Task.deadline = ts2.map Task.deadline) :
    max_deadline ts1 = max_deadline ts2 := by
  cases ts1 with
  | nil =>
      cases ts2 with
      | nil => rfl
      | cons _ _ => simp at h
  | cons t ts =>
      cases ts2 with
      | nil => simp at h
      | cons u us =>
          simp only [List.map_cons, List.cons.injEq] at h
          obtain ⟨hhd, htl⟩ := h
          rw [max_deadline, max_deadline]
          have e1 : ts.foldl (fun m tk => max m tk.deadline) t.deadline
              = (ts.map Task.deadline).foldl (fun m d => max m d) t.deadline :=
            (List.foldl_map Task.deadline (fun m d => max m d) ts t.deadline).symm
          have e2 : us.foldl (fun m tk => max m tk.deadline) u.deadline
              = (us.map Task.deadline).foldl (fun m d => max m d) u.deadline :=
            (List.foldl_map Task.deadline (fun m d => max m d) us u.deadline).symm
          rw [e1, e2, hhd, htl]

lemma min_deadline_congr {ts1 ts2 : List Task}
    (h : ts1.map Task.deadline = ts2.map Task.deadline) :
    min_deadline ts1 = min_deadline ts2 := by
  cases ts1 with
  | nil =>
      cases ts2 with
      | nil => rfl
      | cons _ _ => simp at h
  | cons t ts =>
      cases ts2 with
      | nil => simp at h
      | cons u us =>
          simp only [List.map_cons, List.cons.injEq] at h
          obtain ⟨hhd, htl⟩ := h
          rw [min_deadline, min_deadline]
          have e1 : ts.foldl (fun m tk => min m tk.deadline) t.deadline
              = (ts.map Task.deadline).foldl (fun m d => min m d) t.deadline :=
            (List.foldl_map Task.deadline (fun m d => min m d) ts t.deadline).symm
          have e2 : us.foldl (fun m tk => min m tk.deadline) u.deadline
              = (us.map Task.deadline).foldl (fun m d => min m d) u.deadline :=
            (List.foldl_map Task.deadline (fun m d => min m d) us u.deadline).symm
          rw [e1, e2, hhd, htl]

lemma any_mod_congr : ∀ {ts1 ts2 : List Task},
    ts1.map Task.deadline = ts2.map Task.deadline → ∀ (δ : Int),
    ts1.any (fun t => δ % t.deadline == 0)
      = ts2.any (fun t => δ % t.deadline == 0) := by
  intro ts1
  induction ts1 with
  | nil =>
      intro ts2 h δ
      cases ts2 with
      | nil => rfl
      | cons _ _ => simp at h
  | cons t ts ih =>
      intro ts2 h δ
      cases ts2 with
      | nil => simp at h
      | cons u us =>
          simp only [List.map_cons, List.cons.injEq] at h
          obtain ⟨hhd, htl⟩ := h
          simp only [List.any_cons]
          rw [hhd, ih htl δ]

lemma delta_values_from_congr {ts1 ts2 : List Task}
    (h : ts1.map Task.deadline = ts2.map Task.deadline) :
    ∀ (n : Nat) (delta : Int),
      delta_values_from ts1 delta n = delta_values_from ts2 delta n := by
  intro n
  induction n with
  | zero => intro delta; rfl
  | succ n ih =>
      intro delta
      rw [delta_values_from, delta_values_from, any_mod_congr h delta, ih]

lemma find_L_prime_fuel_congr {ts1 ts2 : List Task}
    (h : ts1.map cpd = ts2.map cpd) (sbf : Int → Int) :
    ∀ (fuel : Nat) (l : Int),
      find_L_prime_fuel ts1 sbf fuel l = find_L_prime_fuel ts2 sbf fuel l := by
  intro fuel
  induction fuel with
  | zero => intro l; rfl
  | succ n ih =>
      intro l
      rw [find_L_prime_fuel, find_L_prime_fuel, rbf_congr h l, ih]

lemma find_L_congr {ts1 ts2 : List Task} (h : ts1.map cpd = ts2.map cpd)
    (fuel : Nat) (sbf : Int → Int) :
    find_L fuel ts1 sbf = find_L fuel ts2 sbf := by
  unfold find_L find_L_prime
  rw [find_L_prime_fuel_congr h sbf fuel 0,
    max_deadline_congr (deadline_map_of_cpd h)]

lemma delta_values_congr {ts1 ts2 : List Task} (h : ts1.map cpd = ts2.map cpd)
    (fuel : Nat) (sbf : Int → Int) :
    delta_values fuel ts1 sbf = delta_values fuel ts2 sbf := by
  unfold delta_values
  rw [find_L_congr h fuel sbf, min_deadline_congr (deadline_map_of_cpd h)]
  cases find_L fuel ts2 sbf with
  | none => rfl
  | some L =>
      cases min_deadline ts2 with
      | none => rfl
      | some d0 =>
          simp only [delta_values_from_congr (deadline_map_of_cpd h)]

lemma length_of_cpd_map {ts1 ts2 : List Task} (h : ts1.map cpd = ts2.map cpd) :
    ts1.length = ts2.length := by
  rw [← List.length_map ts1 cpd, h, List.length_map]

lemma getElem_cpd_of_cpd_map {ts1 ts2 : List Task}
    (h : ts1.map cpd = ts2.map cpd) {i : Nat} (h1 : i < ts1.length)
    (h2 : i < ts2.length) : cpd ts1[i] = cpd ts2[i] := by
  have e := congrArg (fun l => l[i]?) h
  simp only [List.getElem?_map, List.getElem?_eq_getElem h1,
    List.getElem?_eq_getElem h2, Option.map_some'] at e
  injection e

lemma approx_loop_congr {ts1 ts2 : List Task} (h : ts1.map cpd = ts2.map cpd)
    (inv : Int → Int) :
    ∀ (deltas : List Int) (i : Nat) (s : List (Option Int)),
      approx_loop ts1 inv deltas i s = approx_loop ts2 inv deltas i s := by
  have hlen : ts1.length = ts2.length := length_of_cpd_map h
  intro deltas
  induction deltas with
  | nil => intro i s; rfl
  | cons delta rest ih =>
      intro i s
      by_cases hbreak : ts1.length ≤ i + 1
      · rw [approx_loop_break _ _ _ _ _ hbreak,
          approx_loop_break _ _ _ _ _ (by omega)]
      · have h1 : i + 1 < ts1.length := by omega
        have h2 : i + 1 < ts2.length := by omega
        have hd_eq : ts1[i+1].deadline = ts2[i+1].deadline :=
          (cpd_fields (getElem_cpd_of_cpd_map h h1 h2)).2.2
        cases hs : s[if delta ≥ ts1[i+1].deadline then i + 1 else i]? with
        | none =>
            rw [approx_loop_cons_oob ts1 inv delta rest i s hbreak _
                (List.getElem?_eq_getElem h1) hs,
              approx_loop_cons_oob ts2 inv delta rest i s (by omega) _
                (List.getElem?_eq_getElem h2) (by rw [← hd_eq]; exact hs)]
        | some sj =>
            rw [approx_loop_cons_step ts1 inv delta rest i s hbreak _ _
                (List.getElem?_eq_getElem h1) hs,
              approx_loop_cons_step ts2 inv delta rest i s (by omega) _ _
                (List.getElem?_eq_getElem h2) (by rw [← hd_eq]; exact hs)]
            rw [hd_eq, dbf_congr h delta]
            exact ih _ _

lemma gamma_iter_congr {ts1 ts2 : List Task} (h : ts1.map cpd = ts2.map cpd)
    (inv : Int → Int) (delta : Int) :
    ∀ (fuel : Nat) (x : Int),
      gamma_iter ts1 inv delta fuel x = gamma_iter ts2 inv delta fuel x := by
  intro fuel
  induction fuel with
  | zero => intro x; rfl
  | succ n ih =>
      intro x
      rw [gamma_iter, gamma_iter, mbf_congr h delta x, ih]

lemma exact_loop_congr {ts1 ts2 : List Task} (h : ts1.map cpd = ts2.map cpd)
    (inv : Int → Int) (fuel : Nat) :
    ∀ (deltas : List Int) (i : Nat) (s : List (Option Int)),
      exact_loop ts1 inv fuel deltas i s = exact_loop ts2 inv fuel deltas i s := by
  have hlen : ts1.length = ts2.length := length_of_cpd_map h
  intro deltas
  induction deltas with
  | nil => intro i s; rfl
  | cons delta rest ih =>
      intro i s
      by_cases hbreak : ts1.length ≤ i + 1
      · rw [exact_loop_break _ _ _ _ _ _ hbreak,
          exact_loop_break _ _ _ _ _ _ (by omega)]
      · have h1 : i + 1 < ts1.length := by omega
        have h2 : i + 1 < ts2.length := by omega
        have hd_eq : ts1[i+1].deadline = ts2[i+1].deadline :=
          (cpd_fields (getElem_cpd_of_cpd_map h h1 h2)).2.2
        cases hs : s[if delta ≥ ts1[i+1].deadline then i + 1 else i]? with
        | none =>
            have hoob1 : exact_loop ts1 inv fuel (delta :: rest) i s = .oob := by
              simp only [exact_loop, if_neg hbreak,
                List.getElem?_eq_getElem h1, hs]
            have hoob2 : exact_loop ts2 inv fuel (delta :: rest) i s = .oob := by
              have hs2 : s[if delta ≥ ts2[i+1].deadline then i + 1 else i]?
                  = none := by
                rw [← hd_eq]
                exact hs
              simp only [exact_loop, if_neg (show ¬ ts2.length ≤ i + 1 by omega),
                List.getElem?_eq_getElem h2, hs2]
            rw [hoob1, hoob2]
        | some sj =>
            rw [exact_loop_cons_step ts1 inv fuel delta rest i s hbreak _ _
                (List.getElem?_eq_getElem h1) hs,
              exact_loop_cons_step ts2 inv fuel delta rest i s (by omega) _ _
                (List.getElem?_eq_getElem h2) (by rw [← hd_eq]; exact hs)]
            rw [hd_eq, dbf_congr h delta, gamma_iter_congr h inv delta fuel 0]
            by_cases himp : sltInf (delta - inv (dbf ts2 delta)) sj = true
            · rw [if_pos himp, if_pos himp]
              cases gamma_iter ts2 inv delta fuel 0 with
              | none => rfl
              | some g => exact ih _ _
            · rw [if_neg himp, if_neg himp]
              exact ih _ _

lemma insert_by_deadline_perm (t : Task) (l : List Task) :
    List.Perm (insert_by_deadline t l) (t :: l) := by
  induction l with
  | nil => exact List.Perm.refl _
  | cons u us ih =>
      rw [insert_by_deadline]
      by_cases h : u.deadline < t.deadline
      · rw [if_pos h]
        exact (List.Perm.cons u ih).trans (List.Perm.swap t u us)
      · rw [if_neg h]

lemma sort_by_deadline_perm (ts : List Task) :
    List.Perm (sort_by_deadline ts) ts := by
  induction ts with
  | nil => exact List.Perm.refl _
  | cons t ts ih =>
      rw [sort_by_deadline]
      exact (insert_by_deadline_perm t _).trans (List.Perm.cons t ih)

lemma insert_by_deadline_sorted (t : Task) :
    ∀ {l : List Task},
      List.Sorted (fun a b : Task => a.deadline ≤ b.deadline) l →
      List.Sorted (fun a b : Task => a.deadline ≤ b.deadline)
        (insert_by_deadline t l) := by
  intro l
  induction l with
  | nil =>
      intro _
      simp [insert_by_deadline]
  | cons u us ih =>
      intro h
      obtain ⟨hu, hus⟩ := List.sorted_cons.mp h
      rw [insert_by_deadline]
      by_cases hc : u.deadline < t.deadline
      · rw [if_pos hc]
        refine List.sorted_cons.mpr ⟨?_, ih hus⟩
        intro b hb
        rcases List.mem_cons.mp ((insert_by_deadline_perm t us).mem_iff.mp hb)
          with rfl | hbus
        · omega
        · exact hu b hbus
      · rw [if_neg hc]
        refine List.sorted_cons.mpr ⟨?_, h⟩
        intro b hb
        rcases List.mem_cons.mp hb with rfl | hbus
        · omega
        · exact le_trans (by omega) (hu b hbus)

lemma sort_by_deadline_sorted (ts : List Task) :
    List.Sorted (fun a b : Task => a.deadline ≤ b.deadline)
      (sort_by_deadline ts) := by
  induction ts with
  | nil => exact List.sorted_nil
  | cons t ts ih => exact insert_by_deadline_sorted t ih

lemma sort_eq_self_of_sorted :
    ∀ {l : List Task},
      List.Sorted (fun a b : Task => a.deadline ≤ b.deadline) l →
      sort_by_deadline l = l := by
  intro l
  induction l with
  | nil => intro _; rfl
  | cons t ts ih =>
      intro h
      obtain ⟨hall, hts⟩ := List.sorted_cons.mp h
      rw [sort_by_deadline, ih hts]
      cases ts with
      | nil => rfl
      | cons u us =>
          rw [insert_by_deadline,
            if_neg (by have := hall u (by simp); omega)]

lemma sorted_of_deadline_map {l1 l2 : List Task}
    (h : l1.map Task.deadline = l2.map Task.deadline)
    (hs : List.Sorted (fun a b : Task => a.deadline ≤ b.deadline) l1) :
    List.Sorted (fun a b : Task => a.deadline ≤ b.deadline) l2 := by
  have h1 : List.Pairwise (fun a b : Int => a ≤ b) (l1.map Task.deadline) :=
    List.pairwise_map.mpr hs
  rw [h] at h1
  exact List.pairwise_map.mp h1

lemma utilization_congr : ∀ {ts1 ts2 : List Task},
    ts1.map cpd = ts2.map cpd → utilization ts1 = utilization ts2 := by
  intro ts1
  induction ts1 with
  | nil =>
      intro ts2 h
      cases ts2 with
      | nil => rfl
      | cons _ _ => simp at h
  | cons t ts ih =>
      intro ts2 h
      cases ts2 with
      | nil => simp at h
      | cons u us =>
          simp only [List.map_cons, List.cons.injEq] at h
          obtain ⟨hhd, htl⟩ := h
          obtain ⟨h1, h2, _⟩ := cpd_fields hhd
          rw [utilization, utilization]
          simp only [List.map_cons, List.sum_cons]
          have htail := ih htl
          rw [utilization, utilization] at htail
          rw [h1, h2, htail]

lemma utilization_perm {l1 l2 : List Task} (h : List.Perm l1 l2) :
    utilization l1 = utilization l2 :=
  List.Perm.sum_eq (h.map _)

lemma finalizeSpec_cpd : ∀ (ts : List Task) (s : List (Option Int)),
    (finalizeSpec ts s).map cpd = ts.map cpd := by
  intro ts
  induction ts with
  | nil => intro s; cases s <;> rfl
  | cons t ts ih =>
      intro s
      cases s with
      | nil => rfl
      | cons sv ss =>
          simp only [finalizeSpec, List.map_cons]
          rw [ih ss]
          rfl

lemma finalizeSpec_length : ∀ (ts : List Task) (s : List (Option Int)),
    (finalizeSpec ts s).length = ts.length := by
  intro ts
  induction ts with
  | nil => intro s; cases s <;> rfl
  | cons t ts ih =>
      intro s
      cases s with
      | nil => rfl
      | cons sv ss =>
          simp only [finalizeSpec, List.length_cons, ih ss]

lemma task_rebuild_eq {t1 t2 : Task} (h : cpd t1 = cpd t2) (r : Option Int) :
    ({ t1 with response_time := r } : Task)
      = { t2 with response_time := r } := by
  obtain ⟨h1, h2, h3⟩ := cpd_fields h
  cases t1
  cases t2
  simp_all

lemma finalizeSpec_congr : ∀ {ts1 ts2 : List Task},
    ts1.map cpd = ts2.map cpd → ∀ (s : List (Option Int)),
      ts1.length = s.length → finalizeSpec ts1 s = finalizeSpec ts2 s := by
  intro ts1
  induction ts1 with
  | nil =>
      intro ts2 h s _
      cases ts2 with
      | nil => cases s <;> rfl
      | cons _ _ => simp at h
  | cons t ts ih =>
      intro ts2 h s hlen
      cases ts2 with
      | nil => simp at h
      | cons u us =>
          simp only [List.map_cons, List.cons.injEq] at h
          obtain ⟨hhd, htl⟩ := h
          cases s with
          | nil => simp at hlen
          | cons sv ss =>
              simp only [finalizeSpec, List.cons.injEq]
              refine ⟨?_, ih htl ss (by simpa using hlen)⟩
              obtain ⟨h1, h2, h3⟩ := cpd_fields hhd
              cases t
              cases u
              simp_all

/-- Reassembly: a successful run is determined by its parts. -/
lemma approx_wcrt_of_parts (fuel : Nat) (ts : List Task) (sbf inv : Int → Int)
    (hu : ¬ utilization ts > 1) (t0 : Task) (rest : List Task)
    (deltas : List Int) (s : List (Option Int))
    (hsort : sort_by_deadline ts = t0 :: rest)
    (hd : delta_values fuel (t0 :: rest) sbf = some deltas)
    (hl : approx_loop (t0 :: rest) inv deltas 0
      (List.replicate (t0 :: rest).length none) = .ok s) :
    approx_wcrt fuel ts sbf inv = some (.done (finalize (t0 :: rest) s)) := by
  unfold approx_wcrt
  rw [if_neg hu]
  simp only [hsort, hd, hl]

lemma exact_wcrt_of_parts (fuel : Nat) (ts : List Task) (sbf inv : Int → Int)
    (hu : ¬ utilization ts > 1) (t0 : Task) (rest : List Task)
    (deltas : List Int) (s : List (Option Int))
    (hsort : sort_by_deadline ts = t0 :: rest)
    (hd : delta_values fuel (t0 :: rest) sbf = some deltas)
    (hl : exact_loop (t0 :: rest) inv fuel deltas 0
      (List.replicate (t0 :: rest).length none) = .ok s) :
    exact_wcrt fuel ts sbf inv = some (.done (finalize (t0 :: rest) s)) := by
  unfold exact_wcrt
  rw [if_neg hu]
  simp only [hsort, hd, hl]

lemma approx_guard {fuel : Nat} {ts : List Task} {sbf inv : Int → Int}
    {out : List Task}
    (h : approx_wcrt fuel ts sbf inv = some (.done out)) :
    ¬ utilization ts > 1 := by
  intro hgt
  unfold approx_wcrt at h
  rw [if_pos hgt] at h
  simp at h

lemma exact_guard {fuel : Nat} {ts : List Task} {sbf inv : Int → Int}
    {out : List Task}
    (h : exact_wcrt fuel ts sbf inv = some (.done out)) :
    ¬ utilization ts > 1 := by
  intro hgt
  unfold exact_wcrt at h
  rw [if_pos hgt] at h
  simp at h

/-- C9: running the same algorithm again on the task set produced by a
terminating run yields the identical outcome — the same `response_time`
values and the same (deadline-sorted) task ordering.  The bound functions
read only cost/period/deadline, the output list is already sorted (so the
stable sort is a no-op), and the finalization pass overwrites every
`response_time` with the same value. -/
theorem C9_rerun_idempotent :
    (∀ (fuel : Nat) (ts out : List Task),
      approx_wcrt fuel ts sbf_uniprocessor sbf_inverse_uniprocessor
        = some (.done out) →
      approx_wcrt fuel out sbf_uniprocessor sbf_inverse_uniprocessor
        = some (.done out)) ∧
    (∀ (fuel : Nat) (ts out : List Task),
      exact_wcrt fuel ts sbf_uniprocessor sbf_inverse_uniprocessor
        = some (.done out) →
      exact_wcrt fuel out sbf_uniprocessor sbf_inverse_uniprocessor
        = some (.done out)) := by
  constructor
  · intro fuel ts out h
    obtain ⟨t0, rest, deltas, s, hsort, hd, hl, houtEq⟩ :=
      approx_wcrt_done_inversion h
    have hu : ¬ utilization ts > 1 := approx_guard h
    have hlenS : (t0 :: rest).length = s.length := by
      rw [approx_loop_length _ _ _ _ _ _ hl, List.length_replicate]
    have hfin : out = finalizeSpec (t0 :: rest) s := by
      rw [houtEq, finalize_eq_spec _ _ hlenS]
    have hcpd : out.map cpd = (t0 :: rest).map cpd := by
      rw [hfin, finalizeSpec_cpd]
    have hlen_out : out.length = (t0 :: rest).length := length_of_cpd_map hcpd
    have hdl : out.map Task.deadline = (t0 :: rest).map Task.deadline :=
      deadline_map_of_cpd hcpd
    have hsorted_t0 :
        List.Sorted (fun a b : Task => a.deadline ≤ b.deadline) (t0 :: rest) :=
      by rw [← hsort]; exact sort_by_deadline_sorted ts
    have hsorted_out :
        List.Sorted (fun a b : Task => a.deadline ≤ b.deadline) out :=
      sorted_of_deadline_map hdl.symm hsorted_t0
    have hsort_out : sort_by_deadline out = out :=
      sort_eq_self_of_sorted hsorted_out
    cases out with
    | nil => simp at hlen_out
    | cons o0 orest =>
        have hu_out : ¬ utilization (o0 :: orest) > 1 := by
          have e1 : utilization (o0 :: orest) = utilization (t0 :: rest) :=
            utilization_congr hcpd
          have e2 : utilization (t0 :: rest) = utilization ts := by
            rw [← hsort]
            exact utilization_perm (sort_by_deadline_perm ts)
          rw [e1, e2]
          exact hu
        have hd2 : delta_values fuel (o0 :: orest) sbf_uniprocessor
            = some deltas := by
          rw [delta_values_congr hcpd]
          exact hd
        have hl2 : approx_loop (o0 :: orest) sbf_inverse_uniprocessor deltas 0
            (List.replicate (o0 :: orest).length none) = .ok s := by
          rw [approx_loop_congr hcpd, hlen_out]
          exact hl
        have hrun := approx_wcrt_of_parts fuel (o0 :: orest) sbf_uniprocessor
          sbf_inverse_uniprocessor hu_out o0 orest deltas s hsort_out hd2 hl2
        have hfin2 : finalize (o0 :: orest) s = o0 :: orest := by
          rw [finalize_eq_spec _ _ (by rw [hlen_out]; exact hlenS),
            finalizeSpec_congr hcpd s (by rw [hlen_out]; exact hlenS)]
          exact hfin.symm
        rw [hfin2] at hrun
        exact hrun
  · intro fuel ts out h
    obtain ⟨t0, rest, deltas, s, hsort, hd, hl, houtEq⟩ :=
      exact_wcrt_done_inversion h
    have hu : ¬ utilization ts > 1 := exact_guard h
    have hlenS : (t0 :: rest).length = s.length := by
      rw [exact_loop_length _ _ _ _ _ _ _ hl, List.length_replicate]
    have hfin : out = finalizeSpec (t0 :: rest) s := by
      rw [houtEq, finalize_eq_spec _ _ hlenS]
    have hcpd : out.map cpd = (t0 :: rest).map cpd := by
      rw [hfin, finalizeSpec_cpd]
    have hlen_out : out.length = (t0 :: rest).length := length_of_cpd_map hcpd
    have hdl : out.map Task.deadline = (t0 :: rest).map Task.deadline :=
      deadline_map_of_cpd hcpd
    have hsorted_t0 :
        List.Sorted (fun a b : Task => a.deadline ≤ b.deadline) (t0 :: rest) :=
      by rw [← hsort]; exact sort_by_deadline_sorted ts
    have hsorted_out :
        List.Sorted (fun a b : Task => a.deadline ≤ b.deadline) out :=
      sorted_of_deadline_map hdl.symm hsorted_t0
    have hsort_out : sort_by_deadline out = out :=
      sort_eq_self_of_sorted hsorted_out
    cases out with
    | nil => simp at hlen_out
    | cons o0 orest =>
        have hu_out : ¬ utilization (o0 :: orest) > 1 := by
          have e1 : utilization (o0 :: orest) = utilization (t0 :: rest) :=
            utilization_congr hcpd
          have e2 : utilization (t0 :: rest) = utilization ts := by
            rw [← hsort]
            exact utilization_perm (sort_by_deadline_perm ts)
          rw [e1, e2]
          exact hu
        have hd2 : delta_values fuel (o0 :: orest) sbf_uniprocessor
            = some deltas := by
          rw [delta_values_congr hcpd]
          exact hd
        have hl2 : exact_loop (o0 :: orest) sbf_inverse_uniprocessor fuel
            deltas 0 (List.replicate (o0 :: orest).length none) = .ok s := by
          rw [exact_loop_congr hcpd, hlen_out]
          exact hl
        have hrun := exact_wcrt_of_parts fuel (o0 :: orest) sbf_uniprocessor
          sbf_inverse_uniprocessor hu_out o0 orest deltas s hsort_out hd2 hl2
        have hfin2 : finalize (o0 :: orest) s = o0 :: orest := by
          rw [finalize_eq_spec _ _ (by rw [hlen_out]; exact hlenS),
            finalizeSpec_congr hcpd s (by rw [hlen_out]; exact hlenS)]
          exact hfin.symm
        rw [hfin2] at hrun
        exact hrun

/-- Witness for C9: re-running both algorithms on the populated result of
the spec's concrete scenario reproduces it exactly. -/
theorem C9_rerun_idempotent_witness :
    approx_wcrt 20 tsAB_out sbf_uniprocessor sbf_inverse_uniprocessor
      = some (.done tsAB_out) ∧
    exact_wcrt 20 tsAB_out sbf_uniprocessor sbf_inverse_uniprocessor
      = some (.done tsAB_out) :=
  ⟨C9_rerun_idempotent.1 20 tsAB tsAB_out approx_wcrt_tsAB,
   C9_rerun_idempotent.2 20 tsAB tsAB_out exact_wcrt_tsAB⟩

end GyRta
